import Mathlib

/-!
# FastChan: a shallow embedding of `fast_chan.go`

The queue of `fast_chan.go` is embedded as a record of its four `uint64`
fields and its slot slice.  `uint64` values are natural numbers below
`2 ^ 64`; every operation that can overflow is written with an explicit
`% 2 ^ 64`.  `Put` and `Read` are embedded as small-step functions with one
case per atomic action of the Go code (ticket claim, one iteration of a wait
loop, slot access, one compare-and-swap attempt), so that both the
sequential behaviour (one call run to completion) and the interleavings of
several goroutines can be stated over the same definitions.  `NewFastChan` can
panic in its slot allocation; the platform's limit on slice lengths is not in the
repository and is a parameter `maxLen` of the constructor.
-/

namespace Fastchan

/-- The modulus of `uint64` arithmetic. -/
def U64 : Nat := 2 ^ 64

/-- The item type `CacheItem` is `interface{}`: a value, or `nil` (here `none`). -/
abbrev CacheItem (α : Type) : Type := Option α

/-- The struct `FastChan` without its cache-line padding. -/
structure FastChan (α : Type) where
  indexMask : Nat
  lastCommittedIndex : Nat
  nextFreeIndex : Nat
  readerIndex : Nat
  contents : List (CacheItem α)
deriving DecidableEq, Repr

/-- The function `roundUpNextPowerOfTwo`: `v--`, six shift-or rounds, `v++`.
The decrement and the increment wrap around at `2 ^ 64`; the shift-or rounds
cannot leave the 64-bit range. -/
def roundUpNextPowerOfTwo (v : Nat) : Nat :=
  let v := (v + U64 - 1) % U64
  let v := v ||| (v >>> 1)
  let v := v ||| (v >>> 2)
  let v := v ||| (v >>> 4)
  let v := v ||| (v >>> 8)
  let v := v ||| (v >>> 16)
  let v := v ||| (v >>> 32)
  (v + 1) % U64

/-- The allocation `make([]CacheItem, n)`: `n` nil items, or a run-time panic
(`none`, "makeslice: len out of range") when `n` exceeds `maxLen`, the largest
slice length the platform allocates.  `maxLen` is a platform constant that is not
in the repository (`maxAlloc` over the size of an interface value); it is below
`2 ^ 63`, the range of `int`. -/
def makeSlice {α : Type} (maxLen n : Nat) : Option (List (CacheItem α)) :=
  if n ≤ maxLen then some (List.replicate n none) else none

/-- The constructor `NewFastChan`: the size is rounded, the slots are allocated
(or the call panics, `none`), `indexMask` is `size - 1` in `uint64` arithmetic and
the three counters are zero. -/
def NewFastChan {α : Type} (maxLen size : Nat) : Option (FastChan α) :=
  let size := roundUpNextPowerOfTwo size
  (makeSlice maxLen size).map fun contents =>
    { lastCommittedIndex := 0
      nextFreeIndex := 0
      readerIndex := 0
      indexMask := (size + U64 - 1) % U64
      contents := contents }

/-- The queue `NewFastChan` returns for `size` when its allocation succeeds: the
struct literal with `size` rounded and the slots all nil. -/
def builtQueue {α : Type} (size : Nat) : FastChan α :=
  let size := roundUpNextPowerOfTwo size
  { lastCommittedIndex := 0
    nextFreeIndex := 0
    readerIndex := 0
    indexMask := (size + U64 - 1) % U64
    contents := List.replicate size none }

/-- The method `Empty`. -/
def Empty {α : Type} (c : FastChan α) : FastChan α :=
  { c with lastCommittedIndex := 0, nextFreeIndex := 0, readerIndex := 0 }

/-- The method `Size`: a `uint64` subtraction. -/
def Size {α : Type} (c : FastChan α) : Nat :=
  (c.lastCommittedIndex + U64 - c.readerIndex) % U64

/-- The method `IsEmpty`. -/
def IsEmpty {α : Type} (c : FastChan α) : Bool :=
  decide (c.readerIndex ≥ c.lastCommittedIndex)

/-- The method `IsFull`: the sum is a `uint64` addition. -/
def IsFull {α : Type} (c : FastChan α) : Bool :=
  decide (c.nextFreeIndex ≥ (c.readerIndex + c.indexMask) % U64)

/-- Control points of one call of `Put`.
`start v`: before `atomic.AddUint64(&c.nextFreeIndex, 1)`;
`waiting i v`: at the head of the first `for` loop, holding ticket `i`;
`writing i v`: before the slot assignment;
`committing i`: at the head of the compare-and-swap loop;
`done`: returned; `panicked`: the slot index was out of range. -/
inductive PutPc (α : Type) where
  | start (value : CacheItem α)
  | waiting (myIndex : Nat) (value : CacheItem α)
  | writing (myIndex : Nat) (value : CacheItem α)
  | committing (myIndex : Nat)
  | done
  | panicked
deriving DecidableEq, Repr

/-- One atomic action of `Put` on the shared queue. A wait-loop iteration
whose condition holds, and a failed compare-and-swap, leave everything as it
was (`runtime.Gosched()`). -/
def putStep {α : Type} (c : FastChan α) : PutPc α → FastChan α × PutPc α
  | .start v =>
      let myIndex := (c.nextFreeIndex + 1) % U64
      ({ c with nextFreeIndex := myIndex }, .waiting myIndex v)
  | .waiting myIndex v =>
      if myIndex > (c.readerIndex + c.indexMask) % U64 then (c, .waiting myIndex v)
      else (c, .writing myIndex v)
  | .writing myIndex v =>
      if myIndex &&& c.indexMask < c.contents.length then
        ({ c with contents := c.contents.set (myIndex &&& c.indexMask) v }, .committing myIndex)
      else (c, .panicked)
  | .committing myIndex =>
      if c.lastCommittedIndex = (myIndex + U64 - 1) % U64 then
        ({ c with lastCommittedIndex := myIndex }, .done)
      else (c, .committing myIndex)
  | .done => (c, .done)
  | .panicked => (c, .panicked)

/-- Control points of one call of `Read`.
`start`: before `atomic.AddUint64(&c.readerIndex, 1)`;
`waiting i`: at the head of the `for` loop, holding ticket `i`;
`loading i`: before the slot is read; `done r`: returned `r`;
`panicked`: the slot index was out of range. -/
inductive ReadPc (α : Type) where
  | start
  | waiting (myIndex : Nat)
  | loading (myIndex : Nat)
  | done (result : CacheItem α)
  | panicked
deriving DecidableEq, Repr

/-- One atomic action of `Read` on the shared queue. -/
def readStep {α : Type} (c : FastChan α) : ReadPc α → FastChan α × ReadPc α
  | .start =>
      let myIndex := (c.readerIndex + 1) % U64
      ({ c with readerIndex := myIndex }, .waiting myIndex)
  | .waiting myIndex =>
      if myIndex > c.lastCommittedIndex then (c, .waiting myIndex)
      else (c, .loading myIndex)
  | .loading myIndex =>
      match c.contents.get? (myIndex &&& c.indexMask) with
      | some r => (c, .done r)
      | none => (c, .panicked)
  | .done r => (c, .done r)
  | .panicked => (c, .panicked)

/-- The state of a call of `Put` after `n` of its atomic actions, no other
goroutine taking a step. -/
def putRun {α : Type} : Nat → FastChan α → PutPc α → FastChan α × PutPc α
  | 0, c, pc => (c, pc)
  | n + 1, c, pc => putRun n (putStep c pc).1 (putStep c pc).2

/-- The state of a call of `Read` after `n` of its atomic actions, no other
goroutine taking a step. -/
def readRun {α : Type} : Nat → FastChan α → ReadPc α → FastChan α × ReadPc α
  | 0, c, pc => (c, pc)
  | n + 1, c, pc => readRun n (readStep c pc).1 (readStep c pc).2

/-- A sequential call `c.Put(value)` given `fuel` atomic actions: the queue
it leaves when it has returned, `none` when it has not returned (it is still
spinning, or it panicked). -/
def Put {α : Type} (fuel : Nat) (c : FastChan α) (value : CacheItem α) : Option (FastChan α) :=
  match putRun fuel c (.start value) with
  | (c', .done) => some c'
  | _ => none

/-- A sequential call `c.Read()` given `fuel` atomic actions: the queue it
leaves and the item it returned, `none` when it has not returned. -/
def Read {α : Type} (fuel : Nat) (c : FastChan α) : Option (FastChan α × CacheItem α) :=
  match readRun fuel c .start with
  | (c', .done r) => some (c', r)
  | _ => none

/-- Sequential `Put` of every item of a list, in order. -/
def putAll {α : Type} (fuel : Nat) : FastChan α → List (CacheItem α) → Option (FastChan α)
  | c, [] => some c
  | c, v :: vs =>
      match Put fuel c v with
      | some c' => putAll fuel c' vs
      | none => none

/-- Sequential `Read`, `n` times: the final queue and the items returned, in order. -/
def readN {α : Type} (fuel : Nat) : FastChan α → Nat → Option (FastChan α × List (CacheItem α))
  | c, 0 => some (c, [])
  | c, n + 1 =>
      match Read fuel c with
      | some (c', r) =>
          match readN fuel c' n with
          | some (c'', rs) => some (c'', r :: rs)
          | none => none
      | none => none

/-- The items a quiescent queue holds, oldest first: the slots of the
tickets `readerIndex + 1 .. lastCommittedIndex`. -/
def held {α : Type} (c : FastChan α) : List (CacheItem α) :=
  (List.range (Size c)).map
    (fun i => c.contents.getD ((c.readerIndex + 1 + i) &&& c.indexMask) none)

/-- A queue of capacity `2 ^ k` between calls: every claimed write is
committed, the reader is not ahead of the writer and at most
`capacity - 1` items are held. -/
structure Quiescent {α : Type} (k : Nat) (c : FastChan α) : Prop where
  len : c.contents.length = 2 ^ k
  mask : c.indexMask = 2 ^ k - 1
  committed : c.lastCommittedIndex = c.nextFreeIndex
  reader_le : c.readerIndex ≤ c.lastCommittedIndex
  room : c.lastCommittedIndex ≤ c.readerIndex + c.indexMask
  lc_lt : c.lastCommittedIndex < U64

/-- A goroutine in the middle of one call of `Put` or of `Read`. -/
inductive Thread (α : Type) where
  | putter (pc : PutPc α)
  | reader (pc : ReadPc α)
deriving DecidableEq, Repr

/-- The shared queue and the goroutines working on it. -/
structure System (α : Type) where
  chan : FastChan α
  threads : List (Thread α)
deriving DecidableEq, Repr

/-- Goroutine number `t` takes its next atomic action. -/
def System.step {α : Type} (s : System α) (t : Nat) : System α :=
  match s.threads.get? t with
  | some (.putter pc) =>
      { chan := (putStep s.chan pc).1
        threads := s.threads.set t (.putter (putStep s.chan pc).2) }
  | some (.reader pc) =>
      { chan := (readStep s.chan pc).1
        threads := s.threads.set t (.reader (readStep s.chan pc).2) }
  | none => s

/-- The system after the goroutines have taken their actions in the order of
the schedule. -/
def System.run {α : Type} : System α → List Nat → System α
  | s, [] => s
  | s, t :: sched => System.run (s.step t) sched

/-- The ticket whose commit (successful compare-and-swap) the next action of
goroutine `t` is, if that action is one. -/
def System.commitOf {α : Type} (s : System α) (t : Nat) : Option Nat :=
  match s.threads.get? t with
  | some (.putter (.committing myIndex)) =>
      if s.chan.lastCommittedIndex = (myIndex + U64 - 1) % U64 then some myIndex else none
  | _ => none

/-- The tickets committed along a schedule, in the order of their commits. -/
def System.commits {α : Type} : System α → List Nat → List Nat
  | _, [] => []
  | s, t :: sched =>
      match s.commitOf t with
      | some i => i :: System.commits (s.step t) sched
      | none => System.commits (s.step t) sched

/-- A queue with one goroutine per item to `Put` and `readers` goroutines that
each `Read` once, none of which has started. -/
def System.init {α : Type} (c : FastChan α) (items : List (CacheItem α)) (readers : Nat) :
    System α :=
  { chan := c
    threads := items.map (fun v => .putter (.start v)) ++ List.replicate readers (.reader .start) }

/-- The items returned by the calls of `Read` that have returned, by goroutine. -/
def System.results {α : Type} (s : System α) : List (CacheItem α) :=
  s.threads.filterMap fun
    | .reader (.done r) => some r
    | _ => none

/-- Every call has returned. -/
def System.allDone {α : Type} (s : System α) : Bool :=
  s.threads.all fun
    | .putter .done => true
    | .reader (.done _) => true
    | _ => false

/-- No call of `Put` or `Read` is in flight: every goroutine has not started or has
returned. -/
def System.quiescent {α : Type} (s : System α) : Bool :=
  s.threads.all fun
    | .putter (.start _) => true
    | .putter .done => true
    | .reader .start => true
    | .reader (.done _) => true
    | _ => false

/-- The write ticket a goroutine holds, if it holds one. -/
def Thread.putTicket {α : Type} : Thread α → Option Nat
  | .putter (.waiting myIndex _) => some myIndex
  | .putter (.writing myIndex _) => some myIndex
  | .putter (.committing myIndex) => some myIndex
  | _ => none

/-- What holds of a system that was started on a fresh queue and has taken at
most `n` atomic actions, `n` below `2 ^ 64`: the counters have not wrapped, the
commits are not ahead of the claims, every write ticket held was issued, every
claimed read ticket that is not committed yet is held by a reader in its wait
loop, and every reader past its wait loop holds a committed ticket. -/
structure SysInv {α : Type} (n : Nat) (s : System α) : Prop where
  nf_le : s.chan.nextFreeIndex ≤ n
  r_le : s.chan.readerIndex ≤ n
  lc_le : s.chan.lastCommittedIndex ≤ s.chan.nextFreeIndex
  put_tickets : ∀ t ∈ s.threads, ∀ i, t.putTicket = some i → 1 ≤ i ∧ i ≤ s.chan.nextFreeIndex
  waiting_reads : ∀ j, s.chan.lastCommittedIndex < j → j ≤ s.chan.readerIndex →
    Thread.reader (.waiting j) ∈ s.threads
  loading_reads : ∀ i, Thread.reader (.loading i) ∈ s.threads →
    i ≤ s.chan.lastCommittedIndex

/-- The queues reached from `c0` by `n` sequential calls of `Put` and `Read`,
each of which has returned before the next one starts. -/
inductive SeqReach {α : Type} (c0 : FastChan α) : Nat → FastChan α → Prop where
  | init : SeqReach c0 0 c0
  | put (n fuel : Nat) (c c1 : FastChan α) (v : CacheItem α) :
      SeqReach c0 n c → Put fuel c v = some c1 → SeqReach c0 (n + 1) c1
  | read (n fuel : Nat) (c c1 : FastChan α) (x : CacheItem α) :
      SeqReach c0 n c → Read fuel c = some (c1, x) → SeqReach c0 (n + 1) c1

/-- A sequential call: `Put(value)` or `Read()`. -/
inductive Op (α : Type) where
  | put (value : CacheItem α)
  | read
deriving DecidableEq, Repr

/-- Sequential calls in order, each given `fuel` atomic actions: the final queue
and the items the `Read`s returned, `none` when a call has not returned. -/
def seqRun {α : Type} (fuel : Nat) :
    FastChan α → List (Op α) → Option (FastChan α × List (CacheItem α))
  | c, [] => some (c, [])
  | c, .put v :: ops =>
      match Put fuel c v with
      | some c1 => seqRun fuel c1 ops
      | none => none
  | c, .read :: ops =>
      match Read fuel c with
      | some (c1, x) =>
          match seqRun fuel c1 ops with
          | some (c2, outs) => some (c2, x :: outs)
          | none => none
      | none => none

/-- The abstract bounded FIFO: a list to which `Put` appends and whose head `Read`
removes.  A `Put` is admitted when fewer than `cap - 1` items are held, a `Read`
when at least one item is held; the result is the final list and the items
returned by the `Read`s, `none` when a call is not admitted. -/
def modelRun {α : Type} (cap : Nat) :
    List (CacheItem α) → List (Op α) → Option (List (CacheItem α) × List (CacheItem α))
  | m, [] => some (m, [])
  | m, .put v :: ops => if m.length + 1 < cap then modelRun cap (m ++ [v]) ops else none
  | [], .read :: _ => none
  | x :: m, .read :: ops =>
      match modelRun cap m ops with
      | some (m1, outs) => some (m1, x :: outs)
      | none => none

/-! ## Capacity rounding -/

theorem U64_eq : U64 = 18446744073709551616 := by decide

/-- One shift-or round doubles the run of set bits below the leading bit. -/
theorem smear_round (k m x : Nat) (hx : x < 2 ^ (k + 1))
    (hb : ∀ j, j ≤ k → k < j + m → x.testBit j = true) :
    (x ||| (x >>> m)) < 2 ^ (k + 1) ∧
      ∀ j, j ≤ k → k < j + 2 * m → (x ||| (x >>> m)).testBit j = true := by
  constructor
  · apply Nat.or_lt_two_pow hx
    rw [Nat.shiftRight_eq_div_pow]
    exact lt_of_le_of_lt (Nat.div_le_self _ _) hx
  · intro j hj hjm
    rw [Nat.testBit_or, Nat.testBit_shiftRight]
    by_cases h : k < j + m
    · simp [hb j hj h]
    · have : x.testBit (m + j) = true := hb (m + j) (by omega) (by omega)
      simp [this]

/-- A number below `2 ^ (k + 1)` whose bits `0..k` are all set is `2 ^ (k + 1) - 1`. -/
theorem eq_two_pow_sub_one_of_bits (k x : Nat) (hx : x < 2 ^ (k + 1))
    (hb : ∀ j, j ≤ k → x.testBit j = true) : x = 2 ^ (k + 1) - 1 := by
  apply Nat.eq_of_testBit_eq
  intro i
  rw [Nat.testBit_two_pow_sub_one]
  by_cases hi : i < k + 1
  · simp [hi, hb i (by omega)]
  · have : x < 2 ^ i := lt_of_lt_of_le hx (Nat.pow_le_pow_right (by decide) (by omega))
    simp [hi, Nat.testBit_lt_two_pow this]

/-- The leading bit of a non-zero number is at position `log2`. -/
theorem testBit_log2_self (w : Nat) (h0 : w ≠ 0) : w.testBit w.log2 = true := by
  have h1 : 2 ^ w.log2 ≤ w := Nat.log2_self_le h0
  have h2 : w < 2 ^ (w.log2 + 1) := Nat.lt_log2_self
  have hpos : 0 < 2 ^ w.log2 := Nat.pow_pos (by decide)
  have hd : w / 2 ^ w.log2 = 1 := by
    apply Nat.div_eq_of_lt_le
    · simpa using h1
    · rw [pow_succ] at h2
      omega
  rw [Nat.testBit_to_div_mod, hd]
  rfl

/-- The six shift-or rounds turn a non-zero `w < 2 ^ 64` into `2 ^ (log2 w + 1) - 1`. -/
theorem smear_eq (w : Nat) (h0 : w ≠ 0) (h64 : w < 2 ^ 64) :
    (let v := w
     let v := v ||| (v >>> 1)
     let v := v ||| (v >>> 2)
     let v := v ||| (v >>> 4)
     let v := v ||| (v >>> 8)
     let v := v ||| (v >>> 16)
     let v := v ||| (v >>> 32)
     v) = 2 ^ (w.log2 + 1) - 1 := by
  have hk : w.log2 < 64 := (Nat.log2_lt h0).2 h64
  have s0 : w < 2 ^ (w.log2 + 1) ∧ ∀ j, j ≤ w.log2 → w.log2 < j + 1 → w.testBit j = true := by
    refine ⟨Nat.lt_log2_self, ?_⟩
    intro j hj hj1
    have : j = w.log2 := by omega
    subst this
    exact testBit_log2_self w h0
  have s1 := smear_round _ 1 _ s0.1 s0.2
  have s2 := smear_round _ 2 _ s1.1 s1.2
  have s3 := smear_round _ 4 _ s2.1 s2.2
  have s4 := smear_round _ 8 _ s3.1 s3.2
  have s5 := smear_round _ 16 _ s4.1 s4.2
  have s6 := smear_round _ 32 _ s5.1 s5.2
  exact eq_two_pow_sub_one_of_bits _ _ s6.1 (fun j hj => s6.2 j hj (by omega))

/-- For `0 < size ≤ 2 ^ 63` the rounding returns the least power of two that is
at least `size`. -/
theorem roundUp_spec (size : Nat) (h0 : 0 < size) (h63 : size ≤ 2 ^ 63) :
    ∃ k, k ≤ 63 ∧ roundUpNextPowerOfTwo size = 2 ^ k ∧ size ≤ 2 ^ k ∧
      ∀ j, size ≤ 2 ^ j → 2 ^ k ≤ 2 ^ j := by
  have hU : U64 = 2 ^ 64 := rfl
  by_cases h1 : size = 1
  · subst h1
    exact ⟨0, by decide, by decide, by decide, fun j _ => Nat.pow_le_pow_right (by decide) (by omega)⟩
  · have hw0 : size - 1 ≠ 0 := by omega
    have hw : (size + U64 - 1) % U64 = size - 1 := by
      rw [U64_eq]; rw [show (2:Nat) ^ 63 = 9223372036854775808 by decide] at h63; omega
    have hw64 : size - 1 < 2 ^ 64 := by
      rw [show (2:Nat) ^ 63 = 9223372036854775808 by decide] at h63
      rw [show (2:Nat) ^ 64 = 18446744073709551616 by decide]; omega
    have hlog : (size - 1).log2 < 63 := by
      rw [Nat.log2_lt hw0]; omega
    have hsm := smear_eq (size - 1) hw0 hw64
    have hlo : 2 ^ (size - 1).log2 ≤ size - 1 := Nat.log2_self_le hw0
    have hhi : size - 1 < 2 ^ ((size - 1).log2 + 1) := Nat.lt_log2_self
    have hpos : 0 < 2 ^ ((size - 1).log2 + 1) := Nat.pow_pos (by decide)
    have hlt : 2 ^ ((size - 1).log2 + 1) < U64 := by
      rw [hU]; exact Nat.pow_lt_pow_right (by decide) (by omega)
    refine ⟨(size - 1).log2 + 1, by omega, ?_, by omega, ?_⟩
    · unfold roundUpNextPowerOfTwo
      simp only [hw]
      simp only at hsm
      rw [hsm, Nat.sub_add_cancel hpos, Nat.mod_eq_of_lt hlt]
    · intro j hj
      apply Nat.pow_le_pow_right (by decide)
      by_contra hcon
      have : 2 ^ j ≤ 2 ^ (size - 1).log2 := Nat.pow_le_pow_right (by decide) (by omega)
      omega

/-- Shape of the queue built from `0 < size ≤ 2 ^ 63`. -/
theorem builtQueue_shape {α : Type} (size : Nat) (h0 : 0 < size) (h63 : size ≤ 2 ^ 63) :
    ∃ k, k ≤ 63 ∧ size ≤ 2 ^ k ∧ (∀ j, size ≤ 2 ^ j → 2 ^ k ≤ 2 ^ j) ∧
      (builtQueue size : FastChan α) =
        { indexMask := 2 ^ k - 1, lastCommittedIndex := 0, nextFreeIndex := 0,
          readerIndex := 0, contents := List.replicate (2 ^ k) none } := by
  obtain ⟨k, hk, hr, hle, hmin⟩ := roundUp_spec size h0 h63
  refine ⟨k, hk, hle, hmin, ?_⟩
  have hpos : 0 < 2 ^ k := Nat.pow_pos (by decide)
  have hlt : 2 ^ k < U64 := Nat.pow_lt_pow_right (by decide) (by omega)
  unfold builtQueue
  simp only [hr]
  have : (2 ^ k + U64 - 1) % U64 = 2 ^ k - 1 := by
    rw [show 2 ^ k + U64 - 1 = (2 ^ k - 1) + U64 by omega, Nat.add_mod_right,
      Nat.mod_eq_of_lt (by omega)]
  rw [this]

/-! ## Sequential calls -/

theorem putRun_done {α : Type} (n : Nat) (c : FastChan α) : putRun n c .done = (c, .done) := by
  induction n with
  | zero => rfl
  | succ n ih => simpa [putRun, putStep] using ih

theorem readRun_done {α : Type} (n : Nat) (c : FastChan α) (r : CacheItem α) :
    readRun n c (.done r) = (c, .done r) := by
  induction n with
  | zero => rfl
  | succ n ih => simpa [readRun, readStep] using ih

/-- A writer whose wait condition holds stays in its wait loop for as long as
nobody else moves. -/
theorem putRun_waiting {α : Type} (n : Nat) (c : FastChan α) (i : Nat) (v : CacheItem α)
    (h : i > (c.readerIndex + c.indexMask) % U64) :
    putRun n c (.waiting i v) = (c, .waiting i v) := by
  induction n with
  | zero => rfl
  | succ n ih => simp [putRun, putStep, h, ih]

/-- A reader whose wait condition holds stays in its wait loop for as long as
nobody else moves. -/
theorem readRun_waiting {α : Type} (n : Nat) (c : FastChan α) (i : Nat)
    (h : i > c.lastCommittedIndex) :
    readRun n c (.waiting i) = (c, .waiting i) := by
  induction n with
  | zero => rfl
  | succ n ih => simp [readRun, readStep, h, ih]

/-- A sequential `Put` whose ticket exceeds `readerIndex + indexMask` never returns. -/
theorem Put_blocked {α : Type} (fuel : Nat) (c : FastChan α) (v : CacheItem α)
    (h : (c.nextFreeIndex + 1) % U64 > (c.readerIndex + c.indexMask) % U64) :
    Put fuel c v = none := by
  cases fuel with
  | zero => rfl
  | succ n =>
    unfold Put
    have := putRun_waiting n { c with nextFreeIndex := (c.nextFreeIndex + 1) % U64 }
      ((c.nextFreeIndex + 1) % U64) v h
    simp only [putRun, putStep]
    rw [this]

theorem putRun_succ {α : Type} (n : Nat) (c c' : FastChan α) (pc pc' : PutPc α)
    (h : putStep c pc = (c', pc')) : putRun (n + 1) c pc = putRun n c' pc' := by
  show putRun n (putStep c pc).1 (putStep c pc).2 = _
  rw [h]

theorem putStep_waiting_pass {α : Type} (c : FastChan α) (i : Nat) (v : CacheItem α)
    (h : i ≤ (c.readerIndex + c.indexMask) % U64) :
    putStep c (.waiting i v) = (c, .writing i v) := by
  have : ¬ i > (c.readerIndex + c.indexMask) % U64 := Nat.not_lt.2 h
  simp only [putStep, this, if_false]

theorem putStep_writing_ok {α : Type} (c : FastChan α) (i : Nat) (v : CacheItem α)
    (h : i &&& c.indexMask < c.contents.length) :
    putStep c (.writing i v)
      = ({ c with contents := c.contents.set (i &&& c.indexMask) v }, .committing i) := by
  simp only [putStep, h, if_true]

theorem putStep_committing_ok {α : Type} (c : FastChan α) (i : Nat)
    (h : c.lastCommittedIndex = (i + U64 - 1) % U64) :
    putStep c (.committing i) = ({ c with lastCommittedIndex := i }, .done) := by
  show (if c.lastCommittedIndex = (i + U64 - 1) % U64 then
      (({ c with lastCommittedIndex := i } : FastChan α), (PutPc.done : PutPc α))
    else (c, .committing i)) = _
  rw [if_pos h]

theorem Put_eq_some {α : Type} (fuel : Nat) (c : FastChan α) (v : CacheItem α) (hf : 4 ≤ fuel)
    (hnf : c.nextFreeIndex + 1 < U64)
    (hroom : c.nextFreeIndex + 1 ≤ (c.readerIndex + c.indexMask) % U64)
    (hidx : (c.nextFreeIndex + 1) &&& c.indexMask < c.contents.length)
    (hlc : c.lastCommittedIndex = c.nextFreeIndex) :
    Put fuel c v = some
      { c with
        nextFreeIndex := c.nextFreeIndex + 1
        lastCommittedIndex := c.nextFreeIndex + 1
        contents := c.contents.set ((c.nextFreeIndex + 1) &&& c.indexMask) v } := by
  obtain ⟨m, rfl⟩ : ∃ m, fuel = m + 4 := ⟨fuel - 4, by omega⟩
  have h1 : (c.nextFreeIndex + 1) % U64 = c.nextFreeIndex + 1 := Nat.mod_eq_of_lt hnf
  have h3 : c.lastCommittedIndex = (c.nextFreeIndex + 1 + U64 - 1) % U64 := by
    rw [show c.nextFreeIndex + 1 + U64 - 1 = c.nextFreeIndex + U64 by omega, Nat.add_mod_right,
      Nat.mod_eq_of_lt (by omega)]
    exact hlc
  have hs : putStep c (.start v)
      = ({ c with nextFreeIndex := c.nextFreeIndex + 1 }, .waiting (c.nextFreeIndex + 1) v) := by
    show (({ c with nextFreeIndex := (c.nextFreeIndex + 1) % U64 } : FastChan α),
      PutPc.waiting ((c.nextFreeIndex + 1) % U64) v) = _
    rw [h1]
  unfold Put
  rw [putRun_succ _ _ _ _ _ hs,
    putRun_succ _ _ _ _ _
      (putStep_waiting_pass { c with nextFreeIndex := c.nextFreeIndex + 1 } _ v hroom),
    putRun_succ _ _ _ _ _
      (putStep_writing_ok { c with nextFreeIndex := c.nextFreeIndex + 1 } _ v hidx),
    putRun_succ _ _ _ _ _
      (putStep_committing_ok
        { c with
          nextFreeIndex := c.nextFreeIndex + 1
          contents := c.contents.set ((c.nextFreeIndex + 1) &&& c.indexMask) v } _ h3),
    putRun_done]


theorem readRun_succ {α : Type} (n : Nat) (c c' : FastChan α) (pc pc' : ReadPc α)
    (h : readStep c pc = (c', pc')) : readRun (n + 1) c pc = readRun n c' pc' := by
  show readRun n (readStep c pc).1 (readStep c pc).2 = _
  rw [h]

theorem readStep_waiting_pass {α : Type} (c : FastChan α) (i : Nat)
    (h : i ≤ c.lastCommittedIndex) : readStep c (.waiting i) = (c, .loading i) := by
  have : ¬ i > c.lastCommittedIndex := Nat.not_lt.2 h
  simp only [readStep, this, if_false]

theorem readStep_loading_ok {α : Type} (c : FastChan α) (i : Nat) (r : CacheItem α)
    (h : c.contents.get? (i &&& c.indexMask) = some r) :
    readStep c (.loading i) = (c, .done r) := by
  simp only [readStep, h]

theorem readStep_loading_oob {α : Type} (c : FastChan α) (i : Nat)
    (h : c.contents.get? (i &&& c.indexMask) = none) :
    readStep c (.loading i) = (c, .panicked) := by
  simp only [readStep, h]

theorem putStep_writing_oob {α : Type} (c : FastChan α) (i : Nat) (v : CacheItem α)
    (h : ¬ i &&& c.indexMask < c.contents.length) :
    putStep c (.writing i v) = (c, .panicked) := by
  simp only [putStep, h, if_false]

theorem putStep_committing_fail {α : Type} (c : FastChan α) (i : Nat)
    (h : c.lastCommittedIndex ≠ (i + U64 - 1) % U64) :
    putStep c (.committing i) = (c, .committing i) := by
  show (if c.lastCommittedIndex = (i + U64 - 1) % U64 then
      (({ c with lastCommittedIndex := i } : FastChan α), (PutPc.done : PutPc α))
    else (c, .committing i)) = _
  rw [if_neg h]

/-- A sequential `Read` of a committed ticket returns within three actions. -/
theorem Read_eq_some {α : Type} (fuel : Nat) (c : FastChan α) (hf : 3 ≤ fuel)
    (hr : c.readerIndex + 1 ≤ c.lastCommittedIndex) (hlc : c.lastCommittedIndex < U64)
    (hidx : (c.readerIndex + 1) &&& c.indexMask < c.contents.length) :
    Read fuel c = some
      ({ c with readerIndex := c.readerIndex + 1 },
        c.contents.getD ((c.readerIndex + 1) &&& c.indexMask) none) := by
  obtain ⟨m, rfl⟩ : ∃ m, fuel = m + 3 := ⟨fuel - 3, by omega⟩
  have h1 : (c.readerIndex + 1) % U64 = c.readerIndex + 1 := Nat.mod_eq_of_lt (by omega)
  have h3 : c.contents.get? ((c.readerIndex + 1) &&& c.indexMask)
      = some (c.contents.getD ((c.readerIndex + 1) &&& c.indexMask) none) := by
    rw [List.getD_eq_getElem?_getD, List.get?_eq_getElem?, List.getElem?_eq_getElem hidx]
    rfl
  have hs : readStep c .start
      = ({ c with readerIndex := c.readerIndex + 1 }, .waiting (c.readerIndex + 1)) := by
    show (({ c with readerIndex := (c.readerIndex + 1) % U64 } : FastChan α),
      (ReadPc.waiting ((c.readerIndex + 1) % U64) : ReadPc α)) = _
    rw [h1]
  unfold Read
  rw [readRun_succ _ _ _ _ _ hs,
    readRun_succ _ _ _ _ _
      (readStep_waiting_pass { c with readerIndex := c.readerIndex + 1 } _ hr),
    readRun_succ _ _ _ _ _
      (readStep_loading_ok { c with readerIndex := c.readerIndex + 1 } _ _ h3),
    readRun_done]

/-- A sequential `Read` on a queue whose reader has caught up never returns. -/
theorem Read_blocked {α : Type} (fuel : Nat) (c : FastChan α)
    (h : (c.readerIndex + 1) % U64 > c.lastCommittedIndex) :
    Read fuel c = none := by
  cases fuel with
  | zero => rfl
  | succ n =>
    unfold Read
    have hs : readStep c .start = ({ c with readerIndex := (c.readerIndex + 1) % U64 },
      .waiting ((c.readerIndex + 1) % U64)) := rfl
    rw [readRun_succ _ _ _ _ _ hs,
      readRun_waiting n { c with readerIndex := (c.readerIndex + 1) % U64 } _ h]

theorem putRun_panicked {α : Type} (n : Nat) (c : FastChan α) :
    putRun n c .panicked = (c, .panicked) := by
  induction n with
  | zero => rfl
  | succ n ih => rw [putRun_succ n c c .panicked .panicked rfl, ih]

theorem readRun_panicked {α : Type} (n : Nat) (c : FastChan α) :
    readRun n c .panicked = (c, .panicked) := by
  induction n with
  | zero => rfl
  | succ n ih => rw [readRun_succ n c c .panicked .panicked rfl, ih]

/-- A writer whose compare-and-swap fails keeps failing for as long as nobody
else moves. -/
theorem putRun_committing {α : Type} (n : Nat) (c : FastChan α) (i : Nat)
    (h : c.lastCommittedIndex ≠ (i + U64 - 1) % U64) :
    putRun n c (.committing i) = (c, .committing i) := by
  induction n with
  | zero => rfl
  | succ n ih => rw [putRun_succ _ _ _ _ _ (putStep_committing_fail c i h), ih]

/-- What a sequential `Read` that returned has done: it took at least three
actions, its ticket was committed, and it changed `readerIndex` only. -/
theorem Read_inv {α : Type} (fuel : Nat) (c c' : FastChan α) (x : CacheItem α)
    (h : Read fuel c = some (c', x)) :
    3 ≤ fuel ∧ (c.readerIndex + 1) % U64 ≤ c.lastCommittedIndex ∧
      c.contents.get? (((c.readerIndex + 1) % U64) &&& c.indexMask) = some x ∧
      c' = { c with readerIndex := (c.readerIndex + 1) % U64 } := by
  by_cases hw : (c.readerIndex + 1) % U64 > c.lastCommittedIndex
  · rw [Read_blocked fuel c hw] at h
    cases h
  · have hle : (c.readerIndex + 1) % U64 ≤ c.lastCommittedIndex := Nat.not_lt.1 hw
    have hs : readStep c .start = ({ c with readerIndex := (c.readerIndex + 1) % U64 },
      .waiting ((c.readerIndex + 1) % U64)) := rfl
    have hp := readStep_waiting_pass { c with readerIndex := (c.readerIndex + 1) % U64 } _ hle
    rcases fuel with _ | _ | _ | m
    · cases h
    · cases h
    · unfold Read at h
      rw [readRun_succ _ _ _ _ _ hs, readRun_succ _ _ _ _ _ hp] at h
      cases h
    · unfold Read at h
      rw [readRun_succ _ _ _ _ _ hs, readRun_succ _ _ _ _ _ hp] at h
      cases hg : c.contents.get? (((c.readerIndex + 1) % U64) &&& c.indexMask) with
      | none =>
        rw [readRun_succ _ _ _ _ _
          (readStep_loading_oob { c with readerIndex := (c.readerIndex + 1) % U64 } _ hg),
          readRun_panicked] at h
        cases h
      | some r =>
        rw [readRun_succ _ _ _ _ _
          (readStep_loading_ok { c with readerIndex := (c.readerIndex + 1) % U64 } _ r hg),
          readRun_done] at h
        cases h
        exact ⟨by omega, hle, rfl, rfl⟩

/-- What a sequential `Put` that returned has done: it took at least four
actions, its ticket was within `readerIndex + indexMask`, its predecessor was
committed, and it changed `nextFreeIndex`, one slot and `lastCommittedIndex`. -/
theorem Put_inv {α : Type} (fuel : Nat) (c c' : FastChan α) (v : CacheItem α)
    (h : Put fuel c v = some c') :
    4 ≤ fuel ∧ (c.nextFreeIndex + 1) % U64 ≤ (c.readerIndex + c.indexMask) % U64 ∧
      ((c.nextFreeIndex + 1) % U64) &&& c.indexMask < c.contents.length ∧
      c.lastCommittedIndex = ((c.nextFreeIndex + 1) % U64 + U64 - 1) % U64 ∧
      c' = { c with
        nextFreeIndex := (c.nextFreeIndex + 1) % U64
        lastCommittedIndex := (c.nextFreeIndex + 1) % U64
        contents := c.contents.set (((c.nextFreeIndex + 1) % U64) &&& c.indexMask) v } := by
  by_cases hw : (c.nextFreeIndex + 1) % U64 > (c.readerIndex + c.indexMask) % U64
  · rw [Put_blocked fuel c v hw] at h
    cases h
  · have hle : (c.nextFreeIndex + 1) % U64 ≤ (c.readerIndex + c.indexMask) % U64 :=
      Nat.not_lt.1 hw
    have hs : putStep c (.start v) = ({ c with nextFreeIndex := (c.nextFreeIndex + 1) % U64 },
      .waiting ((c.nextFreeIndex + 1) % U64) v) := rfl
    have hp := putStep_waiting_pass { c with nextFreeIndex := (c.nextFreeIndex + 1) % U64 } _ v hle
    by_cases hi : ((c.nextFreeIndex + 1) % U64) &&& c.indexMask < c.contents.length
    · have hwr := putStep_writing_ok { c with nextFreeIndex := (c.nextFreeIndex + 1) % U64 } _ v hi
      rcases fuel with _ | _ | _ | _ | m
      · cases h
      · cases h
      · unfold Put at h
        rw [putRun_succ _ _ _ _ _ hs, putRun_succ _ _ _ _ _ hp] at h
        cases h
      · unfold Put at h
        rw [putRun_succ _ _ _ _ _ hs, putRun_succ _ _ _ _ _ hp, putRun_succ _ _ _ _ _ hwr] at h
        cases h
      · unfold Put at h
        rw [putRun_succ _ _ _ _ _ hs, putRun_succ _ _ _ _ _ hp, putRun_succ _ _ _ _ _ hwr] at h
        by_cases hc : c.lastCommittedIndex = ((c.nextFreeIndex + 1) % U64 + U64 - 1) % U64
        · rw [putRun_succ _ _ _ _ _
            (putStep_committing_ok
              { c with
                nextFreeIndex := (c.nextFreeIndex + 1) % U64
                contents := c.contents.set (((c.nextFreeIndex + 1) % U64) &&& c.indexMask) v }
              _ hc), putRun_done] at h
          cases h
          exact ⟨by omega, hle, hi, hc, rfl⟩
        · rw [putRun_committing (m + 1)
              { c with
                nextFreeIndex := (c.nextFreeIndex + 1) % U64
                contents := c.contents.set (((c.nextFreeIndex + 1) % U64) &&& c.indexMask) v }
              _ hc] at h
          cases h
    · have hwr := putStep_writing_oob { c with nextFreeIndex := (c.nextFreeIndex + 1) % U64 } _ v hi
      rcases fuel with _ | _ | _ | m
      · cases h
      · cases h
      · unfold Put at h
        rw [putRun_succ _ _ _ _ _ hs, putRun_succ _ _ _ _ _ hp] at h
        cases h
      · unfold Put at h
        rw [putRun_succ _ _ _ _ _ hs, putRun_succ _ _ _ _ _ hp, putRun_succ _ _ _ _ _ hwr,
          putRun_panicked] at h
        cases h

/-! ## The items held by a quiescent queue -/

theorem mod_add_ne (a d n : Nat) (hd0 : 0 < d) (hdn : d < n) : a % n ≠ (a + d) % n := by
  intro h
  have h1 : a ≡ a + d [MOD n] := h
  have h2 : n ∣ a + d - a := (Nat.modEq_iff_dvd' (Nat.le_add_right a d)).1 h1
  rw [Nat.add_sub_cancel_left] at h2
  have := Nat.le_of_dvd hd0 h2
  omega

theorem getD_set_ne {α : Type} (l : List (CacheItem α)) (i j : Nat) (v : CacheItem α)
    (h : i ≠ j) : (l.set i v).getD j none = l.getD j none := by
  simp [List.getD_eq_getElem?_getD, List.getElem?_set_ne h]

theorem getD_set_self {α : Type} (l : List (CacheItem α)) (i : Nat) (v : CacheItem α)
    (h : i < l.length) : (l.set i v).getD i none = v := by
  simp [List.getD_eq_getElem?_getD, h]

theorem Size_of_le {α : Type} (c : FastChan α) (h : c.readerIndex ≤ c.lastCommittedIndex)
    (hlt : c.lastCommittedIndex < U64) : Size c = c.lastCommittedIndex - c.readerIndex := by
  unfold Size
  rw [show c.lastCommittedIndex + U64 - c.readerIndex
      = (c.lastCommittedIndex - c.readerIndex) + U64 by omega, Nat.add_mod_right,
    Nat.mod_eq_of_lt (by omega)]

theorem two_pow_pos (k : Nat) : 0 < 2 ^ k := Nat.pow_pos (by decide)

/-- On a quiescent queue with fewer than `capacity - 1` items a sequential `Put`
returns and appends its item to the items held. -/
theorem Put_held {α : Type} (k fuel : Nat) (c : FastChan α) (v : CacheItem α) (hf : 4 ≤ fuel)
    (hq : Quiescent k c)
    (hroom : c.lastCommittedIndex + 1 ≤ c.readerIndex + c.indexMask)
    (hb : c.readerIndex + c.indexMask < U64) :
    ∃ c', Put fuel c v = some c' ∧ Quiescent k c' ∧
      c'.lastCommittedIndex = c.lastCommittedIndex + 1 ∧
      c'.readerIndex = c.readerIndex ∧ held c' = held c ++ [v] := by
  obtain ⟨hlen, hmask, hcom, hrle, _, hlt⟩ := hq
  have hpos := two_pow_pos k
  have hidx : (c.nextFreeIndex + 1) &&& c.indexMask < c.contents.length := by
    rw [hmask, Nat.and_pow_two_sub_one_eq_mod, hlen]
    exact Nat.mod_lt _ hpos
  have hput := Put_eq_some fuel c v hf (by omega)
    (by rw [Nat.mod_eq_of_lt hb]; omega) hidx hcom
  refine ⟨_, hput, ⟨by simpa using hlen, hmask, rfl, by simp only; omega, by simp only; omega,
    by simp only; omega⟩, by simp only; omega, rfl, ?_⟩
  unfold held
  rw [Size_of_le _ (by simp only; omega) (by simp only; omega), Size_of_le c hrle hlt]
  simp only
  rw [show c.nextFreeIndex + 1 - c.readerIndex = (c.lastCommittedIndex - c.readerIndex) + 1 by
    omega, List.range_succ, List.map_append]
  congr 1
  · apply List.map_congr_left
    intro i hi
    rw [List.mem_range] at hi
    apply getD_set_ne
    rw [hmask, Nat.and_pow_two_sub_one_eq_mod, Nat.and_pow_two_sub_one_eq_mod]
    have := mod_add_ne (c.readerIndex + 1 + i) (c.lastCommittedIndex - c.readerIndex - i) (2 ^ k)
      (by omega) (by omega)
    rw [show c.readerIndex + 1 + i + (c.lastCommittedIndex - c.readerIndex - i)
      = c.nextFreeIndex + 1 by omega] at this
    exact fun h => this h.symm
  · simp only [List.map_cons, List.map_nil]
    rw [show c.readerIndex + 1 + (c.lastCommittedIndex - c.readerIndex) = c.nextFreeIndex + 1 by
      omega, getD_set_self _ _ _ hidx]

/-- On a quiescent queue that holds an item a sequential `Read` returns the
oldest item held and removes it from the items held. -/
theorem Read_held {α : Type} (k fuel : Nat) (c : FastChan α) (hf : 3 ≤ fuel)
    (hq : Quiescent k c) (hne : c.readerIndex < c.lastCommittedIndex) :
    ∃ c' x, Read fuel c = some (c', x) ∧ Quiescent k c' ∧
      c'.lastCommittedIndex = c.lastCommittedIndex ∧
      c'.readerIndex = c.readerIndex + 1 ∧ held c = x :: held c' := by
  obtain ⟨hlen, hmask, hcom, hrle, hroom, hlt⟩ := hq
  have hpos := two_pow_pos k
  have hidx : (c.readerIndex + 1) &&& c.indexMask < c.contents.length := by
    rw [hmask, Nat.and_pow_two_sub_one_eq_mod, hlen]
    exact Nat.mod_lt _ hpos
  have hread := Read_eq_some fuel c hf (by omega) hlt hidx
  refine ⟨_, _, hread, ⟨hlen, hmask, hcom, by simp only; omega, by simp only; omega, hlt⟩,
    rfl, rfl, ?_⟩
  unfold held
  rw [Size_of_le { c with readerIndex := c.readerIndex + 1 } (by simp only; omega) hlt,
    Size_of_le c hrle hlt]
  simp only
  rw [show c.lastCommittedIndex - c.readerIndex
    = (c.lastCommittedIndex - (c.readerIndex + 1)) + 1 by omega, List.range_succ_eq_map,
    List.map_cons, List.map_map]
  congr 1
  apply List.map_congr_left
  intro i _
  simp only [Function.comp, Nat.succ_eq_add_one]
  rw [show c.readerIndex + 1 + (i + 1) = c.readerIndex + 1 + 1 + i by omega]

/-- Sequential `Put`s that fit return and append their items, in order. -/
theorem putAll_held {α : Type} (k fuel : Nat) (hf : 4 ≤ fuel) (vs : List (CacheItem α)) :
    ∀ c : FastChan α, Quiescent k c →
      c.lastCommittedIndex + vs.length ≤ c.readerIndex + c.indexMask →
      c.readerIndex + c.indexMask < U64 →
      ∃ c', putAll fuel c vs = some c' ∧ Quiescent k c' ∧
        c'.lastCommittedIndex = c.lastCommittedIndex + vs.length ∧
        c'.readerIndex = c.readerIndex ∧ held c' = held c ++ vs := by
  induction vs with
  | nil =>
    intro c hq _ _
    exact ⟨c, rfl, hq, rfl, rfl, by simp⟩
  | cons v vs ih =>
    intro c hq hroom hb
    simp only [List.length_cons] at hroom
    obtain ⟨c1, h1, hq1, hlc1, hr1, hh1⟩ := Put_held k fuel c v hf hq (by omega) hb
    have hm1 : c1.indexMask = c.indexMask := by rw [hq1.mask, hq.mask]
    obtain ⟨c2, h2, hq2, hlc2, hr2, hh2⟩ := ih c1 hq1 (by rw [hlc1, hr1, hm1]; omega)
      (by rw [hr1, hm1]; exact hb)
    refine ⟨c2, by simp only [putAll, h1, h2], hq2, ?_, by rw [hr2, hr1], ?_⟩
    · rw [hlc2, hlc1, List.length_cons]; omega
    · rw [hh2, hh1, List.append_assoc, List.singleton_append]

/-- Sequential `Read`s of items that are held return them oldest first. -/
theorem readN_held {α : Type} (k fuel : Nat) (hf : 3 ≤ fuel) (n : Nat) :
    ∀ c : FastChan α, Quiescent k c → c.readerIndex + n ≤ c.lastCommittedIndex →
      ∃ c', readN fuel c n = some (c', (held c).take n) ∧ Quiescent k c' ∧
        c'.lastCommittedIndex = c.lastCommittedIndex ∧
        c'.readerIndex = c.readerIndex + n ∧ held c' = (held c).drop n := by
  induction n with
  | zero =>
    intro c hq _
    exact ⟨c, rfl, hq, rfl, rfl, rfl⟩
  | succ n ih =>
    intro c hq hn
    obtain ⟨c1, x, h1, hq1, hlc1, hr1, hh1⟩ := Read_held k fuel c hf hq (by omega)
    obtain ⟨c2, h2, hq2, hlc2, hr2, hh2⟩ := ih c1 hq1 (by rw [hlc1, hr1]; omega)
    refine ⟨c2, ?_, hq2, by rw [hlc2, hlc1], by rw [hr2, hr1]; omega, ?_⟩
    · simp only [readN, h1, h2, hh1, List.take_succ_cons]
    · rw [hh2, hh1, List.drop_succ_cons]

theorem held_length {α : Type} (c : FastChan α) : (held c).length = Size c := by
  simp [held]

/-- The queue built from `0 < size ≤ 2 ^ 63` is quiescent and holds nothing. -/
theorem builtQueue_quiescent {α : Type} (size : Nat) (h0 : 0 < size) (h63 : size ≤ 2 ^ 63) :
    ∃ k, k ≤ 63 ∧ Quiescent k (builtQueue size : FastChan α) ∧
      (builtQueue size : FastChan α).contents.length = 2 ^ k ∧
      (builtQueue size : FastChan α).indexMask = 2 ^ k - 1 ∧
      (builtQueue size : FastChan α).lastCommittedIndex = 0 ∧
      (builtQueue size : FastChan α).nextFreeIndex = 0 ∧
      (builtQueue size : FastChan α).readerIndex = 0 ∧
      held (builtQueue size : FastChan α) = [] := by
  obtain ⟨k, hk, _, _, hshape⟩ := builtQueue_shape (α := α) size h0 h63
  rw [hshape]
  have hU : 0 < U64 := by decide
  refine ⟨k, hk, ⟨by simp, rfl, rfl, Nat.le_refl _, Nat.zero_le _, hU⟩, by simp, rfl, rfl,
    rfl, rfl, ?_⟩
  have hS : Size (⟨2 ^ k - 1, 0, 0, 0, List.replicate (2 ^ k) none⟩ : FastChan α) = 0 := by
    show (0 + U64 - 0) % U64 = 0
    rw [Nat.zero_add, Nat.sub_zero, Nat.mod_self]
  unfold held
  rw [hS]
  rfl

/-- A mask `2 ^ k - 1` with `k ≤ 63` cannot overflow when added to zero. -/
theorem mask_lt_U64 (k : Nat) (hk : k ≤ 63) : 2 ^ k - 1 < U64 := by
  have h1 : 2 ^ k < U64 := Nat.pow_lt_pow_right (by decide) (by omega)
  have h2 := two_pow_pos k
  omega

/-- A size that is zero or above `2 ^ 63` rounds to zero: the queue has no slot. -/
theorem roundUp_overflow (size : Nat) (h : size = 0 ∨ 2 ^ 63 < size) (h64 : size < U64) :
    roundUpNextPowerOfTwo size = 0 := by
  rcases h with h | h
  · subst h; decide
  · rw [U64_eq] at h64
    rw [show (2:Nat) ^ 63 = 9223372036854775808 by decide] at h
    have hw : (size + U64 - 1) % U64 = size - 1 := by rw [U64_eq]; omega
    have hw0 : size - 1 ≠ 0 := by omega
    have hlog : (size - 1).log2 = 63 := by
      have h1 : (size - 1).log2 < 64 := by
        rw [Nat.log2_lt hw0, show (2:Nat) ^ 64 = 18446744073709551616 by decide]; omega
      have h2 : 63 ≤ (size - 1).log2 := by
        rw [Nat.le_log2 hw0, show (2:Nat) ^ 63 = 9223372036854775808 by decide]; omega
      omega
    have hsm := smear_eq (size - 1) hw0
      (by rw [show (2:Nat) ^ 64 = 18446744073709551616 by decide]; omega)
    unfold roundUpNextPowerOfTwo
    simp only [hw]
    simp only at hsm
    rw [hsm, hlog]
    decide

/-- Sequential `Put`s of more items than fit never all return. -/
theorem putAll_overfull {α : Type} (k fuel : Nat) (vs : List (CacheItem α)) :
    ∀ c : FastChan α, Quiescent k c → c.readerIndex + c.indexMask < U64 →
      c.readerIndex + c.indexMask < c.lastCommittedIndex + vs.length →
      c.lastCommittedIndex + vs.length < U64 →
      putAll fuel c vs = none := by
  induction vs with
  | nil =>
    intro c hq _ h _
    have := hq.room
    simp only [List.length_nil] at h
    omega
  | cons v vs ih =>
    intro c hq hb h hU64
    simp only [List.length_cons] at h hU64
    cases hp : Put fuel c v with
    | none => simp only [putAll, hp]
    | some c1 =>
      obtain ⟨hf, hle, _, _, _⟩ := Put_inv fuel c c1 v hp
      have hlt := hq.lc_lt
      have hcom := hq.committed
      rw [Nat.mod_eq_of_lt hb] at hle
      have hnf : c.nextFreeIndex + 1 ≤ c.readerIndex + c.indexMask := by
        by_cases hU : c.nextFreeIndex + 1 < U64
        · rwa [Nat.mod_eq_of_lt hU] at hle
        · omega
      obtain ⟨c1', h1, hq1, hlc1, hr1, _⟩ := Put_held k fuel c v hf hq (by omega) hb
      rw [hp] at h1
      cases h1
      have hm1 : c1.indexMask = c.indexMask := by rw [hq1.mask, hq.mask]
      simp only [putAll, hp]
      exact ih c1 hq1 (by rw [hr1, hm1]; exact hb) (by rw [hr1, hm1, hlc1]; omega)
        (by rw [hlc1]; omega)

/-! ## The constructor -/

theorem makeSlice_of_le {α : Type} (maxLen n : Nat) (h : n ≤ maxLen) :
    makeSlice (α := α) maxLen n = some (List.replicate n none) := if_pos h

theorem makeSlice_of_lt {α : Type} (maxLen n : Nat) (h : maxLen < n) :
    makeSlice (α := α) maxLen n = none := if_neg (Nat.not_le.2 h)

theorem NewFastChan_eq_map {α : Type} (maxLen size : Nat) :
    (NewFastChan maxLen size : Option (FastChan α))
      = (makeSlice maxLen (roundUpNextPowerOfTwo size)).map fun contents =>
          { lastCommittedIndex := 0
            nextFreeIndex := 0
            readerIndex := 0
            indexMask := (roundUpNextPowerOfTwo size + U64 - 1) % U64
            contents := contents } := rfl

/-- Within the allocation limit `NewFastChan` returns `builtQueue size`. -/
theorem NewFastChan_of_le {α : Type} (maxLen size : Nat)
    (h : roundUpNextPowerOfTwo size ≤ maxLen) :
    NewFastChan maxLen size = some (builtQueue size : FastChan α) := by
  rw [NewFastChan_eq_map, makeSlice_of_le maxLen _ h]
  rfl

/-- Beyond the allocation limit `NewFastChan` panics. -/
theorem NewFastChan_of_lt {α : Type} (maxLen size : Nat)
    (h : maxLen < roundUpNextPowerOfTwo size) :
    (NewFastChan maxLen size : Option (FastChan α)) = none := by
  rw [NewFastChan_eq_map, makeSlice_of_lt maxLen _ h]
  rfl

/-- `NewFastChan` returns exactly when the rounded size is within the allocation
limit, and what it returns is `builtQueue size`. -/
theorem NewFastChan_some {α : Type} (maxLen size : Nat) (c : FastChan α) :
    NewFastChan maxLen size = some c ↔
      roundUpNextPowerOfTwo size ≤ maxLen ∧ c = builtQueue size := by
  by_cases h : roundUpNextPowerOfTwo size ≤ maxLen
  · rw [NewFastChan_of_le maxLen size h]
    exact ⟨fun e => ⟨h, (Option.some.inj e).symm⟩, fun e => by rw [e.2]⟩
  · rw [NewFastChan_of_lt maxLen size (Nat.not_le.1 h)]
    exact ⟨(fun e => nomatch e), fun e => absurd e.1 h⟩

/-! ## Sequential contract: round trip, size, full boundary -/

theorem builtQueue_length {α : Type} (size : Nat) :
    (builtQueue size : FastChan α).contents.length = roundUpNextPowerOfTwo size := by
  show (List.replicate (roundUpNextPowerOfTwo size) (none : CacheItem α)).length = _
  rw [List.length_replicate]

/-- A 64-bit size whose queue has a slot is in the range `1 .. 2 ^ 63`. -/
theorem size_range_of_slot {α : Type} (size : Nat) (h64 : size < U64)
    (h : 0 < (builtQueue size : FastChan α).contents.length) : 0 < size ∧ size ≤ 2 ^ 63 := by
  rw [builtQueue_length] at h
  by_contra hcon
  have : size = 0 ∨ 2 ^ 63 < size := by omega
  rw [roundUp_overflow size this h64] at h
  exact Nat.lt_irrefl 0 h

/-- C1 (amended): on the queue built by `NewFastChan size`, for a 64-bit `size`, of
capacity `C`, for every list of `N ≤ C - 1` items (`N < C`), `Put` of each item in
order with no `Read` in between returns every time, `N` calls of `Read` then return
the items in exactly the order they were `Put`, and afterwards `Size() == 0` and
`IsEmpty()` is true. -/
theorem C1_fifo_roundtrip {α : Type} (maxLen : Nat) (c0 : FastChan α) (size fuel : Nat) (vs : List (CacheItem α))
    (hnew : NewFastChan maxLen size = some c0)
    (h64 : size < U64)
    (hn : vs.length + 1 ≤ c0.contents.length) (hf : 4 ≤ fuel) :
    ∃ c1 c2, putAll fuel c0 vs = some c1 ∧
      readN fuel c1 vs.length = some (c2, vs) ∧ Size c2 = 0 ∧ IsEmpty c2 = true := by
  obtain ⟨_, hc0⟩ := (NewFastChan_some maxLen size c0).1 hnew
  subst hc0
  obtain ⟨h0, h63⟩ := size_range_of_slot (α := α) size h64 (by omega)
  obtain ⟨k, hk, hq, hlen, hmask, hlc, _, hr, hheld⟩ := builtQueue_quiescent (α := α) size h0 h63
  have hm := mask_lt_U64 k hk
  rw [hlen] at hn
  obtain ⟨c1, h1, hq1, hlc1, hr1, hh1⟩ := putAll_held k fuel hf vs (builtQueue size) hq
    (by rw [hlc, hr, hmask]; omega) (by rw [hr, hmask]; omega)
  rw [hheld, List.nil_append] at hh1
  rw [hlc] at hlc1
  rw [hr] at hr1
  obtain ⟨c2, h2, hq2, hlc2, hr2, _⟩ := readN_held k fuel (by omega) vs.length c1 hq1
    (by omega)
  rw [hh1, List.take_length] at h2
  refine ⟨c1, c2, h1, h2, ?_, ?_⟩
  · rw [Size_of_le c2 hq2.reader_le hq2.lc_lt]
    omega
  · simp only [IsEmpty, decide_eq_true_eq]
    omega

/-- C1, witness: three items through the capacity-4 queue built from size 3. -/
theorem C1_fifo_roundtrip_witness :
    ∃ c1 c2, putAll 4 (builtQueue 3 : FastChan Nat) [some 10, some 20, some 30] = some c1 ∧
      readN 4 c1 3 = some (c2, [some 10, some 20, some 30]) ∧ Size c2 = 0 ∧
      IsEmpty c2 = true :=
  C1_fifo_roundtrip (2 ^ 44) (builtQueue 3) 3 4 [some 10, some 20, some 30] (by decide)
    (by decide) (by decide) (by decide)

/-- C1 as stated fails at `N = C`: on the capacity-2 queue the second of two
`Put`s with no `Read` in between never returns, whatever the number of actions. -/
theorem C1_counterexample :
    NewFastChan (2 ^ 44) 2 = some (builtQueue 2 : FastChan Nat) ∧
      (builtQueue 2 : FastChan Nat).contents.length = 2 ∧
      ¬ ∃ fuel c1, putAll fuel (builtQueue 2 : FastChan Nat) [some 1, some 2] = some c1 := by
  refine ⟨by decide, by decide, ?_⟩
  rintro ⟨fuel, c1, h⟩
  obtain ⟨k, _, hq, _, _, _, _, _, _⟩ := builtQueue_quiescent (α := Nat) 2 (by decide) (by decide)
  rw [putAll_overfull k fuel [some 1, some 2] (builtQueue 2) hq (by decide) (by decide)
    (by decide)] at h
  cases h

/-- C2 (amended): for every size with `0 < size ≤ 2 ^ 63`, with `P` the smallest
power of two that is at least `size`: when the allocation of `P` slots succeeds
(`P` within the platform's limit on slice lengths) `NewFastChan size` builds a queue
whose capacity (the length of the slot array) is `P`, whose `indexMask` is the
capacity minus one and whose three counters are zero; when it does not, `NewFastChan`
panics and builds no queue, which is always so for `P = 2 ^ 63`, the limit being
below `2 ^ 63`.  The limit being at least 2048, sizes 1, 3, 5, 1024 and 1025 give
capacities 1, 4, 8, 1024 and 2048. -/
theorem C2_capacity_rounding {α : Type} (maxLen size : Nat) (h0 : 0 < size)
    (h63 : size ≤ 2 ^ 63) :
    (∃ k, size ≤ 2 ^ k ∧ (∀ j, size ≤ 2 ^ j → 2 ^ k ≤ 2 ^ j) ∧
        (2 ^ k ≤ maxLen → ∃ c : FastChan α, NewFastChan maxLen size = some c ∧
          c.contents.length = 2 ^ k ∧ c.indexMask = c.contents.length - 1 ∧
          c.lastCommittedIndex = 0 ∧ c.nextFreeIndex = 0 ∧ c.readerIndex = 0) ∧
        (maxLen < 2 ^ k → (NewFastChan maxLen size : Option (FastChan α)) = none)) ∧
      (maxLen < 2 ^ 63 → (NewFastChan maxLen (2 ^ 63) : Option (FastChan α)) = none) ∧
      (2048 ≤ maxLen →
        (NewFastChan maxLen 1 : Option (FastChan α)).map (fun c => c.contents.length)
          = some 1 ∧
        (NewFastChan maxLen 3 : Option (FastChan α)).map (fun c => c.contents.length)
          = some 4 ∧
        (NewFastChan maxLen 5 : Option (FastChan α)).map (fun c => c.contents.length)
          = some 8 ∧
        (NewFastChan maxLen 1024 : Option (FastChan α)).map (fun c => c.contents.length)
          = some 1024 ∧
        (NewFastChan maxLen 1025 : Option (FastChan α)).map (fun c => c.contents.length)
          = some 2048) := by
  obtain ⟨k, _, hle, hmin, hshape⟩ := builtQueue_shape (α := α) size h0 h63
  have hlen : (builtQueue size : FastChan α).contents.length = 2 ^ k := by
    rw [hshape]
    exact List.length_replicate _ _
  have hround : roundUpNextPowerOfTwo size = 2 ^ k := by
    rw [← builtQueue_length (α := α) size, hlen]
  have hex : ∀ n m : Nat, roundUpNextPowerOfTwo n = m → m ≤ maxLen →
      (NewFastChan maxLen n : Option (FastChan α)).map (fun c => c.contents.length)
        = some m := by
    intro n m h hm
    rw [NewFastChan_of_le maxLen n (by rw [h]; exact hm)]
    show some (builtQueue n : FastChan α).contents.length = some m
    rw [builtQueue_length, h]
  refine ⟨⟨k, hle, hmin, ?_, ?_⟩, ?_, ?_⟩
  · intro hfit
    refine ⟨builtQueue size, NewFastChan_of_le maxLen size (by rw [hround]; exact hfit), hlen,
      ?_, ?_, ?_, ?_⟩
    · rw [hlen, hshape]
    · rw [hshape]
    · rw [hshape]
    · rw [hshape]
  · intro hbig
    exact NewFastChan_of_lt maxLen size (by rw [hround]; exact hbig)
  · intro hbig
    exact NewFastChan_of_lt maxLen (2 ^ 63)
      (by rw [show roundUpNextPowerOfTwo (2 ^ 63) = 2 ^ 63 by decide]; exact hbig)
  · intro h2048
    exact ⟨hex 1 1 (by decide) (by omega), hex 3 4 (by decide) (by omega),
      hex 5 8 (by decide) (by omega), hex 1024 1024 (by decide) (by omega),
      hex 1025 2048 (by decide) (by omega)⟩

/-- C2, witness: size 1000 with the allocation limit `2 ^ 44` rounds to 1024. -/
theorem C2_capacity_rounding_witness :
    ∃ k, 1000 ≤ 2 ^ k ∧ (∀ j, 1000 ≤ 2 ^ j → 2 ^ k ≤ 2 ^ j) ∧
      (2 ^ k ≤ 2 ^ 44 → ∃ c : FastChan Nat, NewFastChan (2 ^ 44) 1000 = some c ∧
        c.contents.length = 2 ^ k ∧ c.indexMask = c.contents.length - 1 ∧
        c.lastCommittedIndex = 0 ∧ c.nextFreeIndex = 0 ∧ c.readerIndex = 0) ∧
      (2 ^ 44 < 2 ^ k → (NewFastChan (2 ^ 44) 1000 : Option (FastChan Nat)) = none) :=
  (C2_capacity_rounding (2 ^ 44) 1000 (by decide) (by decide)).1

/-- C2 as stated fails for large sizes: for size `2 ^ 63 + 1` the rounding overflows
to 0 and the queue built has no slot at all, where the claim asks for `2 ^ 64`
slots; for size `2 ^ 63` the allocation panics and no queue is built. -/
theorem C2_counterexample :
    2 ^ 63 + 1 < U64 ∧ roundUpNextPowerOfTwo (2 ^ 63 + 1) = 0 ∧
      (NewFastChan (2 ^ 44) (2 ^ 63 + 1) : Option (FastChan Nat))
        = some ⟨2 ^ 64 - 1, 0, 0, 0, []⟩ ∧
      roundUpNextPowerOfTwo (2 ^ 63) = 2 ^ 63 ∧
      (NewFastChan (2 ^ 44) (2 ^ 63) : Option (FastChan Nat)) = none := by
  decide

/-- C3: for every 64-bit size, with `C` the capacity of `NewFastChan size`, and every
`k < C`, `k` sequential `Put`s on the fresh queue all return and leave `Size() == k`,
and `k` subsequent `Read`s all return and leave `IsEmpty()` true; for `k = 1` the
single `Read` returns the value that was `Put`. -/
theorem C3_size_then_drain {α : Type} (maxLen : Nat) (c0 : FastChan α) (size fuel : Nat) (vs : List (CacheItem α))
    (hnew : NewFastChan maxLen size = some c0)
    (h64 : size < U64) (hk : vs.length < c0.contents.length)
    (hf : 4 ≤ fuel) :
    ∃ c1 c2 rs, putAll fuel c0 vs = some c1 ∧ Size c1 = vs.length ∧
      readN fuel c1 vs.length = some (c2, rs) ∧ IsEmpty c2 = true ∧
      ∀ x, vs = [x] → Read fuel c1 = some (c2, x) := by
  obtain ⟨_, hc0⟩ := (NewFastChan_some maxLen size c0).1 hnew
  subst hc0
  obtain ⟨h0, h63⟩ := size_range_of_slot (α := α) size h64 (by omega)
  obtain ⟨k, hk63, hq, hlen, hmask, hlc, _, hr, hheld⟩ :=
    builtQueue_quiescent (α := α) size h0 h63
  have hm := mask_lt_U64 k hk63
  rw [hlen] at hk
  obtain ⟨c1, h1, hq1, hlc1, hr1, hh1⟩ := putAll_held k fuel hf vs (builtQueue size) hq
    (by omega) (by omega)
  rw [hheld, List.nil_append] at hh1
  obtain ⟨c2, h2, hq2, hlc2, hr2, _⟩ := readN_held k fuel (by omega) vs.length c1 hq1
    (by omega)
  rw [hh1, List.take_length] at h2
  refine ⟨c1, c2, vs, h1, ?_, h2, ?_, ?_⟩
  · rw [Size_of_le c1 hq1.reader_le hq1.lc_lt]
    omega
  · simp only [IsEmpty, decide_eq_true_eq]
    omega
  · intro x hx
    subst hx
    simp only [List.length_singleton, readN] at h2
    cases hrd : Read fuel c1 with
    | none => rw [hrd] at h2; cases h2
    | some p =>
      obtain ⟨c3, y⟩ := p
      rw [hrd] at h2
      simp only [Option.some.injEq, Prod.mk.injEq, List.cons.injEq, and_true] at h2
      rw [h2.1, h2.2]

/-- C3, witness: three `Put`s and three `Read`s on the capacity-4 queue. -/
theorem C3_size_then_drain_witness :
    ∃ c1 c2 rs, putAll 4 (builtQueue 4 : FastChan Nat) [some 7, some 8, some 9] = some c1 ∧
      Size c1 = 3 ∧ readN 4 c1 3 = some (c2, rs) ∧ IsEmpty c2 = true ∧
      ∀ x, [some 7, some 8, some 9] = [x] → Read 4 c1 = some (c2, x) :=
  C3_size_then_drain (2 ^ 44) (builtQueue 4) 4 4 [some 7, some 8, some 9] (by decide)
    (by decide) (by decide) (by decide)

/-- C4 (amended): on the queue built by `NewFastChan size`, for a 64-bit `size`, of
capacity `C`, for every `k` with `0 ≤ k ≤ C - 1` (`k < C`), `k` sequential `Put`s on
the fresh queue with no `Read` all return and leave `Size() == k`. -/
theorem C4_monotone_size {α : Type} (maxLen : Nat) (c0 : FastChan α) (size fuel : Nat) (vs : List (CacheItem α))
    (hnew : NewFastChan maxLen size = some c0)
    (h64 : size < U64)
    (hk : vs.length + 1 ≤ c0.contents.length) (hf : 4 ≤ fuel) :
    ∃ c1, putAll fuel c0 vs = some c1 ∧ Size c1 = vs.length ∧
      c1.nextFreeIndex = vs.length ∧ c1.lastCommittedIndex = vs.length ∧
      c1.readerIndex = 0 := by
  obtain ⟨_, hc0⟩ := (NewFastChan_some maxLen size c0).1 hnew
  subst hc0
  obtain ⟨h0, h63⟩ := size_range_of_slot (α := α) size h64 (by omega)
  obtain ⟨k, hk63, hq, hlen, hmask, hlc, _, hr, _⟩ := builtQueue_quiescent (α := α) size h0 h63
  have hm := mask_lt_U64 k hk63
  rw [hlen] at hk
  obtain ⟨c1, h1, hq1, hlc1, hr1, _⟩ := putAll_held k fuel hf vs (builtQueue size) hq
    (by omega) (by omega)
  refine ⟨c1, h1, ?_, ?_, by omega, by omega⟩
  · rw [Size_of_le c1 hq1.reader_le hq1.lc_lt]
    omega
  · have := hq1.committed
    omega

/-- C4, witness: seven `Put`s on the capacity-8 queue built from size 5. -/
theorem C4_monotone_size_witness :
    ∃ c1, putAll 4 (builtQueue 5 : FastChan Nat)
        [some 1, some 2, some 3, some 4, some 5, some 6, some 7] = some c1 ∧
      Size c1 = 7 ∧ c1.nextFreeIndex = 7 ∧ c1.lastCommittedIndex = 7 ∧ c1.readerIndex = 0 :=
  C4_monotone_size (2 ^ 44) (builtQueue 5) 5 4
    [some 1, some 2, some 3, some 4, some 5, some 6, some 7] (by decide) (by decide) (by decide)
    (by decide)

/-- C4 as stated fails at `k = C`: on the capacity-4 queue four `Put`s with no
`Read` never all return, so `Size()` never becomes 4. -/
theorem C4_counterexample :
    NewFastChan (2 ^ 44) 4 = some (builtQueue 4 : FastChan Nat) ∧
      (builtQueue 4 : FastChan Nat).contents.length = 4 ∧
      ¬ ∃ fuel c1, putAll fuel (builtQueue 4 : FastChan Nat)
        [some 1, some 2, some 3, some 4] = some c1 := by
  refine ⟨by decide, by decide, ?_⟩
  rintro ⟨fuel, c1, h⟩
  obtain ⟨k, _, hq, _, _, _, _, _, _⟩ := builtQueue_quiescent (α := Nat) 4 (by decide) (by decide)
  rw [putAll_overfull k fuel [some 1, some 2, some 3, some 4] (builtQueue 4) hq (by decide)
    (by decide) (by decide)] at h
  cases h

/-- C5 (amended): on the queue built by `NewFastChan size`, for a 64-bit `size`, of
capacity `C ≥ 1`, after exactly `C - 1` `Put`s with no `Read` (all of them returned)
`IsFull()` is true; one more `Put` takes ticket `C`, stays in its wait loop in every
state in which `readerIndex` has not advanced (so it never returns on its own), and
leaves the wait loop in every state in which one `Read` has claimed its ticket. -/
theorem C5_full_boundary {α : Type} (maxLen : Nat) (c0 : FastChan α) (size fuel : Nat) (vs : List (CacheItem α))
    (x : CacheItem α) (hnew : NewFastChan maxLen size = some c0)
    (h64 : size < U64)
    (hk : vs.length + 1 = c0.contents.length) (hf : 4 ≤ fuel) :
    ∃ c1, putAll fuel c0 vs = some c1 ∧ IsFull c1 = true ∧
      putStep c1 (.start x)
        = ({ c1 with nextFreeIndex := vs.length + 1 }, .waiting (vs.length + 1) x) ∧
      (∀ c2 : FastChan α, c2.indexMask = c1.indexMask → c2.readerIndex = c1.readerIndex →
        putStep c2 (.waiting (vs.length + 1) x) = (c2, .waiting (vs.length + 1) x)) ∧
      (∀ n, Put n c1 x = none) ∧
      (∀ c2 : FastChan α, c2.indexMask = c1.indexMask →
        c2.readerIndex = (readStep c1 .start).1.readerIndex →
        putStep c2 (.waiting (vs.length + 1) x) = (c2, .writing (vs.length + 1) x)) := by
  obtain ⟨_, hc0⟩ := (NewFastChan_some maxLen size c0).1 hnew
  subst hc0
  obtain ⟨h0, h63⟩ := size_range_of_slot (α := α) size h64 (by omega)
  obtain ⟨k, hk63, hq, hlen, hmask, hlc, _, hr, _⟩ := builtQueue_quiescent (α := α) size h0 h63
  have hm := mask_lt_U64 k hk63
  have hpos := two_pow_pos k
  rw [hlen] at hk
  obtain ⟨c1, h1, hq1, hlc1, hr1, _⟩ := putAll_held k fuel hf vs (builtQueue size) hq
    (by omega) (by omega)
  have hcom := hq1.committed
  have hmask1 := hq1.mask
  have hnf : c1.nextFreeIndex = vs.length := by omega
  have hr0 : c1.readerIndex = 0 := by omega
  have hsum : (c1.readerIndex + c1.indexMask) % U64 = vs.length := by
    rw [hr0, hmask1, Nat.zero_add, Nat.mod_eq_of_lt hm]; omega
  have hlt : 2 ^ k < U64 := Nat.pow_lt_pow_right (by decide) (by omega)
  have hlt1 : vs.length + 1 < U64 := by omega
  have hticket : (c1.nextFreeIndex + 1) % U64 = vs.length + 1 := by
    rw [hnf, Nat.mod_eq_of_lt hlt1]
  have hone : (1 : Nat) % U64 = 1 := by decide
  refine ⟨c1, h1, ?_, ?_, ?_, ?_, ?_⟩
  · simp only [IsFull, decide_eq_true_eq]
    rw [hsum]; omega
  · show (({ c1 with nextFreeIndex := (c1.nextFreeIndex + 1) % U64 } : FastChan α),
      PutPc.waiting ((c1.nextFreeIndex + 1) % U64) x) = _
    rw [hticket]
  · intro c2 hm2 hr2
    have hgt : vs.length + 1 > (c2.readerIndex + c2.indexMask) % U64 := by
      rw [hr2, hm2, hsum]; omega
    show (if vs.length + 1 > (c2.readerIndex + c2.indexMask) % U64
      then (c2, PutPc.waiting (vs.length + 1) x) else (c2, PutPc.writing (vs.length + 1) x)) = _
    rw [if_pos hgt]
  · intro n
    apply Put_blocked
    rw [hticket, hsum]; omega
  · intro c2 hm2 hr2
    have hrd : (readStep c1 .start).1.readerIndex = (c1.readerIndex + 1) % U64 := rfl
    apply putStep_waiting_pass
    rw [hr2, hrd, hm2, hr0, hmask1, Nat.zero_add, hone,
      show 1 + (2 ^ k - 1) = 2 ^ k by omega, Nat.mod_eq_of_lt hlt]
    omega

/-- C5, witness: the capacity-4 queue after three `Put`s. -/
theorem C5_full_boundary_witness :
    ∃ c1, putAll 4 (builtQueue 4 : FastChan Nat) [some 1, some 2, some 3] = some c1 ∧
      IsFull c1 = true ∧
      putStep c1 (.start (some 4)) = ({ c1 with nextFreeIndex := 3 + 1 }, .waiting (3 + 1) (some 4)) ∧
      (∀ c2 : FastChan Nat, c2.indexMask = c1.indexMask → c2.readerIndex = c1.readerIndex →
        putStep c2 (.waiting (3 + 1) (some 4)) = (c2, .waiting (3 + 1) (some 4))) ∧
      (∀ n, Put n c1 (some 4) = none) ∧
      (∀ c2 : FastChan Nat, c2.indexMask = c1.indexMask →
        c2.readerIndex = (readStep c1 .start).1.readerIndex →
        putStep c2 (.waiting (3 + 1) (some 4)) = (c2, .writing (3 + 1) (some 4))) :=
  C5_full_boundary (2 ^ 44) (builtQueue 4) 4 4 [some 1, some 2, some 3] (some 4) (by decide)
    (by decide) (by decide) (by decide)

/-- C5 as stated supposes a state that no run reaches: on the capacity-1 queue the
single `Put` that would fill it never returns when no `Read` is made. -/
theorem C5_counterexample :
    NewFastChan (2 ^ 44) 1 = some (builtQueue 1 : FastChan Nat) ∧
      (builtQueue 1 : FastChan Nat).contents.length = 1 ∧
      ¬ ∃ fuel c1, putAll fuel (builtQueue 1 : FastChan Nat) [some 1] = some c1 := by
  refine ⟨by decide, by decide, ?_⟩
  rintro ⟨fuel, c1, h⟩
  obtain ⟨k, _, hq, _, _, _, _, _, _⟩ := builtQueue_quiescent (α := Nat) 1 (by decide) (by decide)
  rw [putAll_overfull k fuel [some 1] (builtQueue 1) hq (by decide) (by decide)
    (by decide)] at h
  cases h

/-! ## Interleaved executions -/

theorem step_none {α : Type} (s : System α) (t : Nat) (h : s.threads.get? t = none) :
    s.step t = s := by
  unfold System.step
  rw [h]

theorem step_putter {α : Type} (s : System α) (t : Nat) (pc : PutPc α)
    (h : s.threads.get? t = some (.putter pc)) :
    s.step t = { chan := (putStep s.chan pc).1
                 threads := s.threads.set t (.putter (putStep s.chan pc).2) } := by
  unfold System.step
  rw [h]

theorem step_reader {α : Type} (s : System α) (t : Nat) (pc : ReadPc α)
    (h : s.threads.get? t = some (.reader pc)) :
    s.step t = { chan := (readStep s.chan pc).1
                 threads := s.threads.set t (.reader (readStep s.chan pc).2) } := by
  unfold System.step
  rw [h]

theorem mem_set_of_ne {β : Type} (l : List β) (t : Nat) (a b u : β)
    (hget : l.get? t = some a) (hu : u ∈ l) (hne : u ≠ a) : u ∈ l.set t b := by
  obtain ⟨m, hm⟩ := List.mem_iff_getElem?.1 hu
  have htm : t ≠ m := by
    intro h
    subst h
    rw [List.get?_eq_getElem?] at hget
    rw [hget] at hm
    exact hne (Option.some.inj hm).symm
  apply List.mem_iff_getElem?.2
  exact ⟨m, by rw [List.getElem?_set_ne htm]; exact hm⟩

theorem mem_set_self {β : Type} (l : List β) (t : Nat) (a b : β)
    (hget : l.get? t = some a) : b ∈ l.set t b := by
  apply List.mem_set
  rw [List.get?_eq_getElem?] at hget
  by_contra hcon
  rw [List.getElem?_eq_none (by omega)] at hget
  cases hget

/-- The invariant is kept when one goroutine is replaced and the queue changed,
provided the new queue and the new goroutine fit together. -/
theorem SysInv_replace {α : Type} (n t : Nat) (s : System α) (a b : Thread α)
    (c : FastChan α) (h : SysInv n s) (hget : s.threads.get? t = some a)
    (hnf : s.chan.nextFreeIndex ≤ c.nextFreeIndex) (hnf1 : c.nextFreeIndex ≤ n + 1)
    (hr1 : c.readerIndex ≤ n + 1)
    (hlc : s.chan.lastCommittedIndex ≤ c.lastCommittedIndex)
    (hlcnf : c.lastCommittedIndex ≤ c.nextFreeIndex)
    (hput : ∀ i, b.putTicket = some i → 1 ≤ i ∧ i ≤ c.nextFreeIndex)
    (hwait : ∀ j, c.lastCommittedIndex < j → j ≤ c.readerIndex →
      (j ≤ s.chan.readerIndex ∧ a ≠ .reader (.waiting j)) ∨ b = .reader (.waiting j))
    (hload : ∀ i, b = .reader (.loading i) → i ≤ c.lastCommittedIndex) :
    SysInv (n + 1) { chan := c, threads := s.threads.set t b } := by
  refine ⟨hnf1, hr1, hlcnf, ?_, ?_, ?_⟩
  · intro u hu i hi
    rcases List.mem_or_eq_of_mem_set hu with hold | hnew
    · have := h.put_tickets u hold i hi
      exact ⟨this.1, Nat.le_trans this.2 hnf⟩
    · subst hnew
      exact hput i hi
  · intro j hj1 hj2
    rcases hwait j hj1 hj2 with ⟨hjr, hne⟩ | hb
    · exact mem_set_of_ne _ _ _ _ _ hget
        (h.waiting_reads j (Nat.lt_of_le_of_lt hlc hj1) hjr) (fun e => hne e.symm)
    · rw [hb]
      exact mem_set_self _ _ _ _ hget
  · intro i hi
    rcases List.mem_or_eq_of_mem_set hi with hold | hnew
    · exact Nat.le_trans (h.loading_reads i hold) hlc
    · exact hload i hnew.symm


theorem putStep_waiting_block {α : Type} (c : FastChan α) (i : Nat) (v : CacheItem α)
    (h : i > (c.readerIndex + c.indexMask) % U64) :
    putStep c (.waiting i v) = (c, .waiting i v) := by
  simp only [putStep, h, if_true]

theorem readStep_waiting_block {α : Type} (c : FastChan α) (i : Nat)
    (h : i > c.lastCommittedIndex) : readStep c (.waiting i) = (c, .waiting i) := by
  simp only [readStep, h, if_true]

theorem pred_mod_U64 (i : Nat) (h1 : 1 ≤ i) (h2 : i < U64) : (i + U64 - 1) % U64 = i - 1 := by
  rw [show i + U64 - 1 = (i - 1) + U64 by omega, Nat.add_mod_right, Nat.mod_eq_of_lt (by omega)]

theorem commitOf_putter {α : Type} (s : System α) (t : Nat) (pc : PutPc α)
    (hget : s.threads.get? t = some (.putter pc)) (hpc : ∀ i, pc ≠ .committing i) :
    s.commitOf t = none := by
  unfold System.commitOf
  rw [hget]
  cases pc with
  | committing i => exact absurd rfl (hpc i)
  | start v => rfl
  | waiting i v => rfl
  | writing i v => rfl
  | done => rfl
  | panicked => rfl

theorem commitOf_reader {α : Type} (s : System α) (t : Nat) (pc : ReadPc α)
    (hget : s.threads.get? t = some (.reader pc)) : s.commitOf t = none := by
  unfold System.commitOf
  rw [hget]

theorem commitOf_committing {α : Type} (s : System α) (t i : Nat)
    (hget : s.threads.get? t = some (.putter (.committing i))) :
    s.commitOf t
      = if s.chan.lastCommittedIndex = (i + U64 - 1) % U64 then some i else none := by
  unfold System.commitOf
  rw [hget]

/-- One atomic action of any goroutine keeps the invariant, lets no counter
decrease, and moves `lastCommittedIndex` only by a commit, which adds one. -/
theorem SysInv_step {α : Type} (n t : Nat) (s : System α) (h : SysInv n s)
    (hn : n + 1 < U64) :
    SysInv (n + 1) (s.step t) ∧
      s.chan.nextFreeIndex ≤ (s.step t).chan.nextFreeIndex ∧
      s.chan.readerIndex ≤ (s.step t).chan.readerIndex ∧
      (∀ i, s.commitOf t = some i →
        i = s.chan.lastCommittedIndex + 1 ∧ (s.step t).chan.lastCommittedIndex = i) ∧
      (s.commitOf t = none →
        (s.step t).chan.lastCommittedIndex = s.chan.lastCommittedIndex) := by
  have hnf := h.nf_le
  have hr := h.r_le
  have hlc := h.lc_le
  have hweak : SysInv (n + 1) s :=
    ⟨by omega, by omega, hlc, h.put_tickets, h.waiting_reads, h.loading_reads⟩
  cases hget : s.threads.get? t with
  | none =>
    rw [step_none s t hget]
    refine ⟨hweak, Nat.le_refl _, Nat.le_refl _, ?_, fun _ => rfl⟩
    intro i hi
    unfold System.commitOf at hi
    rw [hget] at hi
    cases hi
  | some a =>
    have hmem : a ∈ s.threads := List.get?_mem hget
    cases a with
    | putter pc =>
      rw [step_putter s t pc hget]
      cases pc with
      | start v =>
        have hco := commitOf_putter s t _ hget (fun i e => by cases e)
        have e1 : (s.chan.nextFreeIndex + 1) % U64 = s.chan.nextFreeIndex + 1 :=
          Nat.mod_eq_of_lt (by omega)
        have e : putStep s.chan (.start v)
            = ({ s.chan with nextFreeIndex := s.chan.nextFreeIndex + 1 },
                .waiting (s.chan.nextFreeIndex + 1) v) := by
          show (({ s.chan with nextFreeIndex := (s.chan.nextFreeIndex + 1) % U64 } : FastChan α),
            PutPc.waiting ((s.chan.nextFreeIndex + 1) % U64) v) = _
          rw [e1]
        rw [e, hco]
        dsimp only
        refine ⟨SysInv_replace n t s _ _ _ h hget (Nat.le_succ _) (by simp only; omega)
          (by simp only; omega) (Nat.le_refl _) (by simp only; omega) ?_ ?_ ?_,
          Nat.le_succ _, Nat.le_refl _, (fun i hi => by cases hi), fun _ => rfl⟩
        · intro i hi
          cases hi
          exact ⟨by omega, Nat.le_refl _⟩
        · intro j _ hj
          exact Or.inl ⟨hj, fun e => by cases e⟩
        · intro i hi
          cases hi
      | waiting i v =>
        have hco := commitOf_putter s t _ hget (fun i e => by cases e)
        have hti := h.put_tickets _ hmem i rfl
        rw [hco]
        by_cases hc : i > (s.chan.readerIndex + s.chan.indexMask) % U64
        · rw [putStep_waiting_block _ _ _ hc]
          refine ⟨SysInv_replace n t s _ _ _ h hget (Nat.le_refl _) (by simp only; omega) (by simp only; omega)
            (Nat.le_refl _) hlc ?_ ?_ ?_,
            Nat.le_refl _, Nat.le_refl _, (fun i hi => by cases hi), fun _ => rfl⟩
          · intro k hk
            cases hk
            exact hti
          · intro j _ hj
            exact Or.inl ⟨hj, fun e => by cases e⟩
          · intro k hk
            cases hk
        · rw [putStep_waiting_pass _ _ _ (Nat.not_lt.1 hc)]
          refine ⟨SysInv_replace n t s _ _ _ h hget (Nat.le_refl _) (by simp only; omega) (by simp only; omega)
            (Nat.le_refl _) hlc ?_ ?_ ?_,
            Nat.le_refl _, Nat.le_refl _, (fun i hi => by cases hi), fun _ => rfl⟩
          · intro k hk
            cases hk
            exact hti
          · intro j _ hj
            exact Or.inl ⟨hj, fun e => by cases e⟩
          · intro k hk
            cases hk
      | writing i v =>
        have hco := commitOf_putter s t _ hget (fun i e => by cases e)
        have hti := h.put_tickets _ hmem i rfl
        rw [hco]
        by_cases hc : i &&& s.chan.indexMask < s.chan.contents.length
        · rw [putStep_writing_ok _ _ _ hc]
          refine ⟨SysInv_replace n t s _ _ _ h hget (Nat.le_refl _) (by simp only; omega)
            (by simp only; omega) (Nat.le_refl _) hlc ?_ ?_ ?_,
            Nat.le_refl _, Nat.le_refl _, (fun i hi => by cases hi), fun _ => rfl⟩
          · intro k hk
            cases hk
            exact hti
          · intro j _ hj
            exact Or.inl ⟨hj, fun e => by cases e⟩
          · intro k hk
            cases hk
        · rw [putStep_writing_oob _ _ _ hc]
          refine ⟨SysInv_replace n t s _ _ _ h hget (Nat.le_refl _) (by simp only; omega) (by simp only; omega)
            (Nat.le_refl _) hlc ?_ ?_ ?_,
            Nat.le_refl _, Nat.le_refl _, (fun i hi => by cases hi), fun _ => rfl⟩
          · intro k hk
            cases hk
          · intro j _ hj
            exact Or.inl ⟨hj, fun e => by cases e⟩
          · intro k hk
            cases hk
      | committing i =>
        have hti := h.put_tickets _ hmem i rfl
        have hpred := pred_mod_U64 i hti.1 (by omega)
        rw [commitOf_committing s t i hget]
        by_cases hc : s.chan.lastCommittedIndex = (i + U64 - 1) % U64
        · rw [putStep_committing_ok _ _ hc, if_pos hc]
          have hi1 : i = s.chan.lastCommittedIndex + 1 := by omega
          refine ⟨SysInv_replace n t s _ _ _ h hget (Nat.le_refl _) (by simp only; omega)
            (by simp only; omega) (by simp only; omega) (by simp only; omega) ?_ ?_ ?_,
            Nat.le_refl _, Nat.le_refl _, ?_, fun e => by cases e⟩
          · intro k hk
            cases hk
          · intro j hj1 hj2
            exact Or.inl ⟨hj2, fun e => by cases e⟩
          · intro k hk
            cases hk
          · intro k hk
            cases hk
            exact ⟨hi1, rfl⟩
        · rw [putStep_committing_fail _ _ hc, if_neg hc]
          refine ⟨SysInv_replace n t s _ _ _ h hget (Nat.le_refl _) (by simp only; omega) (by simp only; omega)
            (Nat.le_refl _) hlc ?_ ?_ ?_,
            Nat.le_refl _, Nat.le_refl _, (fun i hi => by cases hi), fun _ => rfl⟩
          · intro k hk
            cases hk
            exact hti
          · intro j _ hj
            exact Or.inl ⟨hj, fun e => by cases e⟩
          · intro k hk
            cases hk
      | done =>
        have hco := commitOf_putter s t _ hget (fun i e => by cases e)
        have e : putStep s.chan .done = (s.chan, .done) := rfl
        rw [hco, e]
        dsimp only
        refine ⟨SysInv_replace n t s _ _ _ h hget (Nat.le_refl _) (by omega) (by omega)
          (Nat.le_refl _) hlc ?_ ?_ ?_,
          Nat.le_refl _, Nat.le_refl _, (fun i hi => by cases hi), fun _ => rfl⟩
        · intro k hk
          cases hk
        · intro j _ hj
          exact Or.inl ⟨hj, fun e => by cases e⟩
        · intro k hk
          cases hk
      | panicked =>
        have hco := commitOf_putter s t _ hget (fun i e => by cases e)
        have e : putStep s.chan .panicked = (s.chan, .panicked) := rfl
        rw [hco, e]
        dsimp only
        refine ⟨SysInv_replace n t s _ _ _ h hget (Nat.le_refl _) (by omega) (by omega)
          (Nat.le_refl _) hlc ?_ ?_ ?_,
          Nat.le_refl _, Nat.le_refl _, (fun i hi => by cases hi), fun _ => rfl⟩
        · intro k hk
          cases hk
        · intro j _ hj
          exact Or.inl ⟨hj, fun e => by cases e⟩
        · intro k hk
          cases hk
    | reader pc =>
      rw [step_reader s t pc hget, commitOf_reader s t pc hget]
      cases pc with
      | start =>
        have e1 : (s.chan.readerIndex + 1) % U64 = s.chan.readerIndex + 1 :=
          Nat.mod_eq_of_lt (by omega)
        have e : readStep s.chan .start
            = ({ s.chan with readerIndex := s.chan.readerIndex + 1 },
                .waiting (s.chan.readerIndex + 1)) := by
          show (({ s.chan with readerIndex := (s.chan.readerIndex + 1) % U64 } : FastChan α),
            (ReadPc.waiting ((s.chan.readerIndex + 1) % U64) : ReadPc α)) = _
          rw [e1]
        rw [e]
        dsimp only
        refine ⟨SysInv_replace n t s _ _ _ h hget (Nat.le_refl _) (by simp only; omega)
          (by simp only; omega) (Nat.le_refl _) hlc ?_ ?_ ?_,
          Nat.le_refl _, Nat.le_succ _, (fun i hi => by cases hi), fun _ => rfl⟩
        · intro k hk
          cases hk
        · intro j _ hj
          by_cases hjr : j ≤ s.chan.readerIndex
          · exact Or.inl ⟨hjr, fun e => by cases e⟩
          · have hj' : j = s.chan.readerIndex + 1 := by
              have : j ≤ s.chan.readerIndex + 1 := hj
              omega
            exact Or.inr (by rw [hj'])
        · intro k hk
          cases hk
      | waiting i =>
        by_cases hc : i > s.chan.lastCommittedIndex
        · rw [readStep_waiting_block _ _ hc]
          refine ⟨SysInv_replace n t s _ _ _ h hget (Nat.le_refl _) (by simp only; omega) (by simp only; omega)
            (Nat.le_refl _) hlc ?_ ?_ ?_,
            Nat.le_refl _, Nat.le_refl _, (fun i hi => by cases hi), fun _ => rfl⟩
          · intro k hk
            cases hk
          · intro j _ hj
            by_cases hji : j = i
            · exact Or.inr (by rw [hji])
            · exact Or.inl ⟨hj, fun e => hji (by cases e; rfl)⟩
          · intro k hk
            cases hk
        · rw [readStep_waiting_pass _ _ (Nat.not_lt.1 hc)]
          refine ⟨SysInv_replace n t s _ _ _ h hget (Nat.le_refl _) (by simp only; omega) (by simp only; omega)
            (Nat.le_refl _) hlc ?_ ?_ ?_,
            Nat.le_refl _, Nat.le_refl _, (fun i hi => by cases hi), fun _ => rfl⟩
          · intro k hk
            cases hk
          · intro j hj1 hj
            have hj1' : s.chan.lastCommittedIndex < j := hj1
            refine Or.inl ⟨hj, fun e => ?_⟩
            cases e
            omega
          · intro k hk
            cases hk
            exact Nat.not_lt.1 hc
      | loading i =>
        cases hg : s.chan.contents.get? (i &&& s.chan.indexMask) with
        | none =>
          rw [readStep_loading_oob _ _ hg]
          dsimp only
          refine ⟨SysInv_replace n t s _ _ _ h hget (Nat.le_refl _) (by omega) (by omega)
            (Nat.le_refl _) hlc ?_ ?_ ?_,
            Nat.le_refl _, Nat.le_refl _, (fun i hi => by cases hi), fun _ => rfl⟩
          · intro k hk
            cases hk
          · intro j _ hj
            exact Or.inl ⟨hj, fun e => by cases e⟩
          · intro k hk
            cases hk
        | some r =>
          rw [readStep_loading_ok _ _ r hg]
          dsimp only
          refine ⟨SysInv_replace n t s _ _ _ h hget (Nat.le_refl _) (by omega) (by omega)
            (Nat.le_refl _) hlc ?_ ?_ ?_,
            Nat.le_refl _, Nat.le_refl _, (fun i hi => by cases hi), fun _ => rfl⟩
          · intro k hk
            cases hk
          · intro j _ hj
            exact Or.inl ⟨hj, fun e => by cases e⟩
          · intro k hk
            cases hk
      | done r =>
        have e : readStep s.chan (.done r) = (s.chan, .done r) := rfl
        rw [e]
        dsimp only
        refine ⟨SysInv_replace n t s _ _ _ h hget (Nat.le_refl _) (by omega) (by omega)
          (Nat.le_refl _) hlc ?_ ?_ ?_,
          Nat.le_refl _, Nat.le_refl _, (fun i hi => by cases hi), fun _ => rfl⟩
        · intro k hk
          cases hk
        · intro j _ hj
          exact Or.inl ⟨hj, fun e => by cases e⟩
        · intro k hk
          cases hk
      | panicked =>
        have e : readStep s.chan .panicked = (s.chan, .panicked) := rfl
        rw [e]
        dsimp only
        refine ⟨SysInv_replace n t s _ _ _ h hget (Nat.le_refl _) (by omega) (by omega)
          (Nat.le_refl _) hlc ?_ ?_ ?_,
          Nat.le_refl _, Nat.le_refl _, (fun i hi => by cases hi), fun _ => rfl⟩
        · intro k hk
          cases hk
        · intro j _ hj
          exact Or.inl ⟨hj, fun e => by cases e⟩
        · intro k hk
          cases hk

theorem init_threads {α : Type} (c : FastChan α) (items : List (CacheItem α))
    (readers : Nat) (t : Thread α) (ht : t ∈ (System.init c items readers).threads) :
    (∃ v, t = .putter (.start v)) ∨ t = .reader .start := by
  unfold System.init at ht
  rcases List.mem_append.1 ht with h | h
  · obtain ⟨v, _, hv⟩ := List.mem_map.1 h
    exact Or.inl ⟨v, hv.symm⟩
  · exact Or.inr (List.eq_of_mem_replicate h)

/-- A system whose goroutines have not started and whose queue has its three
counters at zero satisfies the invariant. -/
theorem SysInv_init {α : Type} (c : FastChan α) (items : List (CacheItem α)) (readers : Nat)
    (hlc : c.lastCommittedIndex = 0) (hnf : c.nextFreeIndex = 0) (hr : c.readerIndex = 0) :
    SysInv 0 (System.init c items readers) := by
  have hc : (System.init c items readers).chan = c := rfl
  refine ⟨by rw [hc, hnf], by rw [hc, hr], by rw [hc, hlc, hnf], ?_, ?_, ?_⟩
  · intro t ht i hi
    rcases init_threads c items readers t ht with ⟨v, hv⟩ | hv
    · subst hv; cases hi
    · subst hv; cases hi
  · intro j hj1 hj2
    rw [hc, hr] at hj2
    rw [hc, hlc] at hj1
    omega
  · intro i hi
    rcases init_threads c items readers _ hi with ⟨v, hv⟩ | hv
    · cases hv
    · cases hv

/-- The invariant along a schedule. -/
theorem SysInv_run {α : Type} (sched : List Nat) :
    ∀ (n : Nat) (s : System α), SysInv n s → n + sched.length < U64 →
      SysInv (n + sched.length) (s.run sched) := by
  induction sched with
  | nil =>
    intro n s h _
    exact h
  | cons t sched ih =>
    intro n s h hn
    simp only [List.length_cons] at hn
    have hstep := (SysInv_step n t s h (by omega)).1
    have := ih (n + 1) (s.step t) hstep (by omega)
    simp only [List.length_cons, System.run]
    rw [show n + (sched.length + 1) = n + 1 + sched.length by omega]
    exact this

/-- Along a schedule the commits are those of the tickets that follow
`lastCommittedIndex`, one after the other. -/
theorem commits_run {α : Type} (sched : List Nat) :
    ∀ (n : Nat) (s : System α), SysInv n s → n + sched.length < U64 →
      s.chan.lastCommittedIndex ≤ (s.run sched).chan.lastCommittedIndex ∧
      s.commits sched = List.range' (s.chan.lastCommittedIndex + 1)
        ((s.run sched).chan.lastCommittedIndex - s.chan.lastCommittedIndex) := by
  induction sched with
  | nil =>
    intro n s _ _
    simp only [System.run, System.commits, Nat.sub_self, List.range'_zero, Nat.le_refl, and_self]
  | cons t sched ih =>
    intro n s h hn
    simp only [List.length_cons] at hn
    obtain ⟨hstep, _, _, hsome, hnone⟩ := SysInv_step n t s h (by omega)
    obtain ⟨hle, hcom⟩ := ih (n + 1) (s.step t) hstep (by omega)
    simp only [System.run, System.commits]
    cases hco : s.commitOf t with
    | none =>
      have := hnone hco
      rw [this] at hle hcom
      exact ⟨hle, hcom⟩
    | some i =>
      obtain ⟨hi, hlc⟩ := hsome i hco
      rw [hlc] at hle hcom
      refine ⟨by omega, ?_⟩
      have e : ((s.step t).run sched).chan.lastCommittedIndex - s.chan.lastCommittedIndex
          = (((s.step t).run sched).chan.lastCommittedIndex - i) + 1 := by omega
      rw [hcom, e, ← hi, List.range'_succ]

/-- C6 (evaluation at the failing input): on the capacity-2 queue, three goroutines
`Put` the items 1, 2, 3 and three goroutines `Read` once each.  In the schedule
below the first reader claims ticket 1 and passes its wait check, but is descheduled
before it loads its slot; the writer of ticket 3 is let through as soon as read
ticket 2 is claimed and overwrites slot 1.  Every call returns, item 1 is never
returned and item 3 is returned twice. -/
theorem C6_item_lost_and_duplicated :
    NewFastChan (2 ^ 44) 2 = some (builtQueue 2 : FastChan Nat) ∧
      ((System.init (builtQueue 2 : FastChan Nat) [some 1, some 2, some 3] 3).run
        [0, 0, 0, 0, 3, 3, 1, 1, 1, 1, 4, 4, 4, 2, 2, 2, 2, 3, 5, 5, 5]).allDone = true ∧
      ((System.init (builtQueue 2 : FastChan Nat) [some 1, some 2, some 3] 3).run
        [0, 0, 0, 0, 3, 3, 1, 1, 1, 1, 4, 4, 4, 2, 2, 2, 2, 3, 5, 5, 5]).results
        = [some 3, some 2, some 3] := by
  decide

theorem putStep_ticket_lt {α : Type} (c : FastChan α) (pc : PutPc α) (i : Nat)
    (h : (Thread.putter (putStep c pc).2).putTicket = some i) :
    i < U64 ∨ (Thread.putter pc).putTicket = some i := by
  have hU : 0 < U64 := by decide
  cases pc with
  | start v =>
    left
    have e : (Thread.putter (putStep c (.start v)).2).putTicket
        = some ((c.nextFreeIndex + 1) % U64) := rfl
    rw [e] at h
    cases h
    exact Nat.mod_lt _ hU
  | waiting j v =>
    right
    by_cases hc : j > (c.readerIndex + c.indexMask) % U64
    · rw [putStep_waiting_block c j v hc] at h
      exact h
    · rw [putStep_waiting_pass c j v (Nat.not_lt.1 hc)] at h
      exact h
  | writing j v =>
    right
    by_cases hc : j &&& c.indexMask < c.contents.length
    · rw [putStep_writing_ok c j v hc] at h
      exact h
    · rw [putStep_writing_oob c j v hc] at h
      cases h
  | committing j =>
    right
    by_cases hc : c.lastCommittedIndex = (j + U64 - 1) % U64
    · rw [putStep_committing_ok c j hc] at h
      cases h
    · rw [putStep_committing_fail c j hc] at h
      exact h
  | done => cases h
  | panicked => cases h

/-- Write tickets are 64-bit values, in every state of every execution. -/
theorem step_tickets_lt {α : Type} (s : System α) (t : Nat)
    (h : ∀ u ∈ s.threads, ∀ i, u.putTicket = some i → i < U64) :
    ∀ u ∈ (s.step t).threads, ∀ i, u.putTicket = some i → i < U64 := by
  cases hget : s.threads.get? t with
  | none =>
    rw [step_none s t hget]
    exact h
  | some a =>
    have hmem : a ∈ s.threads := List.get?_mem hget
    cases a with
    | putter pc =>
      rw [step_putter s t pc hget]
      intro u hu i hi
      rcases List.mem_or_eq_of_mem_set hu with hold | hnew
      · exact h u hold i hi
      · subst hnew
        rcases putStep_ticket_lt s.chan pc i hi with hlt | hold
        · exact hlt
        · exact h _ hmem i hold
    | reader pc =>
      rw [step_reader s t pc hget]
      intro u hu i hi
      rcases List.mem_or_eq_of_mem_set hu with hold | hnew
      · exact h u hold i hi
      · subst hnew
        cases hi

/-- An atomic action moves `lastCommittedIndex` only when it is a commit: the
commit of ticket `i` finds `i - 1` there (in 64-bit arithmetic) and stores `i`. -/
theorem step_commit {α : Type} (s : System α) (t : Nat) :
    (∀ i, s.commitOf t = some i →
        s.chan.lastCommittedIndex = (i + U64 - 1) % U64 ∧
        (s.step t).chan.lastCommittedIndex = i) ∧
      (s.commitOf t = none →
        (s.step t).chan.lastCommittedIndex = s.chan.lastCommittedIndex) := by
  cases hget : s.threads.get? t with
  | none =>
    rw [step_none s t hget]
    refine ⟨fun i hi => ?_, fun _ => rfl⟩
    unfold System.commitOf at hi
    rw [hget] at hi
    cases hi
  | some a =>
    cases a with
    | reader pc =>
      rw [step_reader s t pc hget, commitOf_reader s t pc hget]
      refine ⟨(fun i hi => by cases hi), fun _ => ?_⟩
      cases pc with
      | start => rfl
      | waiting i =>
        by_cases hc : i > s.chan.lastCommittedIndex
        · rw [readStep_waiting_block _ i hc]
        · rw [readStep_waiting_pass _ i (Nat.not_lt.1 hc)]
      | loading i =>
        cases hg : s.chan.contents.get? (i &&& s.chan.indexMask) with
        | none => rw [readStep_loading_oob _ i hg]
        | some r => rw [readStep_loading_ok _ i r hg]
      | done r => rfl
      | panicked => rfl
    | putter pc =>
      rw [step_putter s t pc hget]
      cases pc with
      | start v =>
        rw [commitOf_putter s t _ hget (fun i e => by cases e)]
        exact ⟨(fun i hi => by cases hi), fun _ => rfl⟩
      | waiting j v =>
        rw [commitOf_putter s t _ hget (fun i e => by cases e)]
        refine ⟨(fun i hi => by cases hi), fun _ => ?_⟩
        by_cases hc : j > (s.chan.readerIndex + s.chan.indexMask) % U64
        · rw [putStep_waiting_block _ j v hc]
        · rw [putStep_waiting_pass _ j v (Nat.not_lt.1 hc)]
      | writing j v =>
        rw [commitOf_putter s t _ hget (fun i e => by cases e)]
        refine ⟨(fun i hi => by cases hi), fun _ => ?_⟩
        by_cases hc : j &&& s.chan.indexMask < s.chan.contents.length
        · rw [putStep_writing_ok _ j v hc]
        · rw [putStep_writing_oob _ j v hc]
      | committing j =>
        rw [commitOf_committing s t j hget]
        by_cases hc : s.chan.lastCommittedIndex = (j + U64 - 1) % U64
        · rw [putStep_committing_ok _ j hc, if_pos hc]
          refine ⟨fun i hi => ?_, fun e => by cases e⟩
          cases hi
          exact ⟨hc, rfl⟩
        · rw [putStep_committing_fail _ j hc, if_neg hc]
          exact ⟨(fun i hi => by cases hi), fun _ => rfl⟩
      | done =>
        rw [commitOf_putter s t _ hget (fun i e => by cases e)]
        exact ⟨(fun i hi => by cases hi), fun _ => rfl⟩
      | panicked =>
        rw [commitOf_putter s t _ hget (fun i e => by cases e)]
        exact ⟨(fun i hi => by cases hi), fun _ => rfl⟩

theorem commitOf_lt {α : Type} (s : System α) (t i : Nat)
    (h : ∀ u ∈ s.threads, ∀ i, u.putTicket = some i → i < U64)
    (hco : s.commitOf t = some i) : i < U64 := by
  cases hget : s.threads.get? t with
  | none =>
    unfold System.commitOf at hco
    rw [hget] at hco
    cases hco
  | some a =>
    cases a with
    | reader pc =>
      rw [commitOf_reader s t pc hget] at hco
      cases hco
    | putter pc =>
      by_cases hpc : ∃ j, pc = .committing j
      · obtain ⟨j, hj⟩ := hpc
        subst hj
        rw [commitOf_committing s t j hget] at hco
        by_cases hc : s.chan.lastCommittedIndex = (j + U64 - 1) % U64
        · rw [if_pos hc] at hco
          cases hco
          exact h _ (List.get?_mem hget) i rfl
        · rw [if_neg hc] at hco
          cases hco
      · rw [commitOf_putter s t pc hget (fun j e => hpc ⟨j, e⟩)] at hco
        cases hco

theorem succ_of_pred_mod (a i : Nat) (hi : i < U64) (h : a = (i + U64 - 1) % U64) :
    i = (a + 1) % U64 := by
  rw [U64_eq] at hi h ⊢
  omega

/-- Along every schedule, whatever its length, the tickets committed are the
successors of `lastCommittedIndex` in 64-bit arithmetic, one after the other. -/
theorem commits_run_mod {α : Type} (sched : List Nat) :
    ∀ s : System α, (∀ u ∈ s.threads, ∀ i, u.putTicket = some i → i < U64) →
      s.commits sched = (List.range (s.commits sched).length).map
        (fun j => (s.chan.lastCommittedIndex + 1 + j) % U64) := by
  induction sched with
  | nil =>
    intro s _
    rfl
  | cons t sched ih =>
    intro s h
    have hstep := step_tickets_lt s t h
    obtain ⟨hsome, hnone⟩ := step_commit s t
    have hrec := ih (s.step t) hstep
    simp only [System.commits]
    cases hco : s.commitOf t with
    | none =>
      simp only
      rw [hnone hco] at hrec
      exact hrec
    | some i =>
      simp only
      obtain ⟨hpre, hpost⟩ := hsome i hco
      have hi := succ_of_pred_mod _ i (commitOf_lt s t i h hco) hpre
      rw [hpost] at hrec
      rw [List.length_cons, List.range_succ_eq_map, List.map_cons, List.map_map]
      have hfun : ((fun j => (s.chan.lastCommittedIndex + 1 + j) % U64) ∘ Nat.succ)
          = fun j => (i + 1 + j) % U64 := by
        funext j
        simp only [Function.comp, Nat.succ_eq_add_one]
        rw [hi, show s.chan.lastCommittedIndex + 1 + (j + 1)
          = (s.chan.lastCommittedIndex + 1) + (1 + j) by omega, Nat.add_mod,
          show (s.chan.lastCommittedIndex + 1) % U64 + 1 + j
            = (s.chan.lastCommittedIndex + 1) % U64 + (1 + j) by omega]
        conv_rhs => rw [Nat.add_mod, Nat.mod_mod]
      rw [hfun, ← hrec, Nat.add_zero, ← hi]

/-- C7: the compare-and-swap of a writer holding ticket `k` succeeds exactly when
`lastCommittedIndex == k - 1` (in 64-bit arithmetic; `k - 1` itself for `k ≥ 1`),
then sets it to `k` and changes nothing else, and otherwise changes nothing.  Hence
in every execution from a queue with zero counters the `n`-th commit is the one of
ticket `n` (modulo `2 ^ 64`): `lastCommittedIndex` grows by exactly one per commit
and ticket `k` is never committed before ticket `k - 1`, whatever the order of the
slot writes; in executions of fewer than `2 ^ 64` actions the commits are those of
the tickets 1, 2, ..., `lastCommittedIndex`, in this order. -/
theorem C7_commit_ordering {α : Type} (c : FastChan α) (items : List (CacheItem α))
    (readers : Nat) (sched : List Nat)
    (hlc : c.lastCommittedIndex = 0) (hnf : c.nextFreeIndex = 0) (hr : c.readerIndex = 0) :
    (∀ (q : FastChan α) (k : Nat),
        ((putStep q (.committing k)).2 = .done ↔ q.lastCommittedIndex = (k + U64 - 1) % U64) ∧
        (1 ≤ k → k < U64 → (k + U64 - 1) % U64 = k - 1) ∧
        ((putStep q (.committing k)).2 = .done →
          (putStep q (.committing k)).1 = { q with lastCommittedIndex := k }) ∧
        ((putStep q (.committing k)).2 ≠ .done →
          putStep q (.committing k) = (q, .committing k))) ∧
      (System.init c items readers).commits sched
        = (List.range ((System.init c items readers).commits sched).length).map
            (fun n => (1 + n) % U64) ∧
      (sched.length < U64 →
        (System.init c items readers).commits sched
          = List.range' 1 ((System.init c items readers).run sched).chan.lastCommittedIndex) := by
  refine ⟨?_, ?_, ?_⟩
  · intro q k
    by_cases hc : q.lastCommittedIndex = (k + U64 - 1) % U64
    · rw [putStep_committing_ok q k hc]
      exact ⟨⟨fun _ => hc, fun _ => rfl⟩, pred_mod_U64 k, fun _ => rfl, fun h => absurd rfl h⟩
    · rw [putStep_committing_fail q k hc]
      refine ⟨⟨fun h => ?_, fun h => absurd h hc⟩, pred_mod_U64 k, fun h => ?_, fun _ => rfl⟩
      · cases h
      · cases h
  · have hinit : ∀ u ∈ (System.init c items readers).threads, ∀ i,
        u.putTicket = some i → i < U64 := by
      intro u hu i hi
      rcases init_threads c items readers u hu with ⟨v, hv⟩ | hv
      · subst hv; cases hi
      · subst hv; cases hi
    have h := commits_run_mod sched (System.init c items readers) hinit
    have h0 : (System.init c items readers).chan.lastCommittedIndex = 0 := hlc
    rw [h0] at h
    simp only [Nat.zero_add] at h
    exact h
  · intro hlen
    have hinv := SysInv_init c items readers hlc hnf hr
    obtain ⟨_, hcom⟩ := commits_run sched 0 (System.init c items readers) hinv (by omega)
    have h0 : (System.init c items readers).chan.lastCommittedIndex = 0 := hlc
    rw [hcom, h0]
    rfl

/-- C7, witness: two writers on the capacity-4 queue; the writer of ticket 2 writes
its slot first and fails its compare-and-swap until ticket 1 is committed. -/
theorem C7_commit_ordering_witness :
    (System.init (builtQueue 4 : FastChan Nat) [some 1, some 2] 0).commits
        [0, 1, 1, 1, 1, 0, 0, 0, 1] = [1, 2] ∧
      (System.init (builtQueue 4 : FastChan Nat) [some 1, some 2] 0).commits
        [0, 1, 1, 1, 1, 0, 0, 0, 1]
      = List.range' 1 ((System.init (builtQueue 4 : FastChan Nat) [some 1, some 2] 0).run
          [0, 1, 1, 1, 1, 0, 0, 0, 1]).chan.lastCommittedIndex :=
  ⟨by decide,
    (C7_commit_ordering (builtQueue 4 : FastChan Nat) [some 1, some 2] 0
      [0, 1, 1, 1, 1, 0, 0, 0, 1] (by decide) (by decide) (by decide)).2.2 (by decide)⟩

/-! ## Reset, item limit, reads keep the slots -/

theorem Size_zero_counters {α : Type} (c : FastChan α) (hlc : c.lastCommittedIndex = 0)
    (hr : c.readerIndex = 0) : Size c = 0 := by
  unfold Size
  rw [hlc, hr, Nat.zero_add, Nat.sub_zero, Nat.mod_self]

/-- On a quiescent queue that holds nothing and has room for one item, a `Put` of
`x` followed by a `Read` returns `x`. -/
theorem put_read_roundtrip {α : Type} (k fuel : Nat) (c : FastChan α) (x : CacheItem α)
    (hf : 4 ≤ fuel) (hq : Quiescent k c) (he : c.readerIndex = c.lastCommittedIndex)
    (hroom : c.lastCommittedIndex + 1 ≤ c.readerIndex + c.indexMask)
    (hb : c.readerIndex + c.indexMask < U64) :
    ∃ c1 c2, Put fuel c x = some c1 ∧ Size c1 = 1 ∧ Read fuel c1 = some (c2, x) ∧
      IsEmpty c2 = true ∧ c2.lastCommittedIndex = c.lastCommittedIndex + 1 ∧
      c2.nextFreeIndex = c.nextFreeIndex + 1 ∧ c2.readerIndex = c.readerIndex + 1 ∧
      Quiescent k c2 := by
  obtain ⟨c1, h1, hq1, hlc1, hr1, hh1⟩ := Put_held k fuel c x hf hq hroom hb
  obtain ⟨c2, y, h2, hq2, hlc2, hr2, hh2⟩ := Read_held k fuel c1 (by omega) hq1 (by omega)
  have hS : Size c = 0 := by
    rw [Size_of_le c hq.reader_le hq.lc_lt]; omega
  have hheld : held c = [] := by
    unfold held
    rw [hS]
    rfl
  rw [hheld, List.nil_append, hh2] at hh1
  have hy : y = x := (List.cons.inj hh1).1
  subst hy
  have hcom := hq.committed
  have hcom2 := hq2.committed
  refine ⟨c1, c2, h1, ?_, h2, ?_, by omega, by omega, by omega, hq2⟩
  · rw [Size_of_le c1 hq1.reader_le hq1.lc_lt]; omega
  · simp only [IsEmpty, decide_eq_true_eq]
    omega

/-- C8 (amended): for every queue state, `Empty()` sets the three counters to zero and
leaves `indexMask` and the slot array unchanged, so that right after it `Size() == 0`
and `IsEmpty()` is true; and when the queue has capacity `2 ^ k` with `1 ≤ k ≤ 63`
(capacity at least 2) a `Put` of `x` followed by a `Read` then returns `x`, as on a
freshly constructed queue. -/
theorem C8_reset {α : Type} (c : FastChan α) (x : CacheItem α) (k fuel : Nat) :
    (Empty c).lastCommittedIndex = 0 ∧ (Empty c).nextFreeIndex = 0 ∧
      (Empty c).readerIndex = 0 ∧ (Empty c).indexMask = c.indexMask ∧
      (Empty c).contents = c.contents ∧ Size (Empty c) = 0 ∧ IsEmpty (Empty c) = true ∧
      (1 ≤ k → k ≤ 63 → c.contents.length = 2 ^ k → c.indexMask = 2 ^ k - 1 → 4 ≤ fuel →
        ∃ c1 c2, Put fuel (Empty c) x = some c1 ∧ Size c1 = 1 ∧
          Read fuel c1 = some (c2, x) ∧ IsEmpty c2 = true) := by
  have hE : IsEmpty (Empty c) = true := by
    simp only [IsEmpty, Empty, decide_eq_true_eq]
    exact Nat.le_refl 0
  refine ⟨rfl, rfl, rfl, rfl, rfl, Size_zero_counters _ rfl rfl, hE, ?_⟩
  intro hk1 hk63 hlen hmask hf
  have hm := mask_lt_U64 k hk63
  have h2 : 2 ≤ 2 ^ k := by
    calc 2 = 2 ^ 1 := rfl
      _ ≤ 2 ^ k := Nat.pow_le_pow_right (by decide) hk1
  have hU : 0 < U64 := by decide
  have hq : Quiescent k (Empty c) :=
    ⟨hlen, hmask, rfl, Nat.le_refl _, Nat.zero_le _, hU⟩
  have hm1 : (Empty c).indexMask = 2 ^ k - 1 := hmask
  have hr0 : (Empty c).readerIndex = 0 := rfl
  have hlc0 : (Empty c).lastCommittedIndex = 0 := rfl
  obtain ⟨c1, c2, h1, hs, hrd, he, _⟩ := put_read_roundtrip k fuel (Empty c) x hf hq rfl
    (by omega) (by omega)
  exact ⟨c1, c2, h1, hs, hrd, he⟩

/-- C8, witness: a capacity-4 queue with stale counters and slots is reset and
reused. -/
theorem C8_reset_witness :
    ∃ c1 c2, Put 4 (Empty (⟨3, 6, 6, 5, [some 4, some 5, some 6, some 3]⟩ : FastChan Nat))
        (some 9) = some c1 ∧ Size c1 = 1 ∧ Read 4 c1 = some (c2, some 9) ∧
      IsEmpty c2 = true :=
  (C8_reset (⟨3, 6, 6, 5, [some 4, some 5, some 6, some 3]⟩ : FastChan Nat) (some 9) 2 4).2.2.2.2.2.2.2
    (by decide) (by decide) (by decide) (by decide) (by decide)

/-- C8 as stated fails on a queue of capacity 1: after `Empty()` a `Put` never
returns when no `Read` is made, so no `Read` returns its item. -/
theorem C8_counterexample :
    NewFastChan (2 ^ 44) 1 = some (builtQueue 1 : FastChan Nat) ∧
      (builtQueue 1 : FastChan Nat).contents.length = 1 ∧
      ¬ ∃ fuel c1, Put fuel (Empty (builtQueue 1 : FastChan Nat)) (some 7) = some c1 := by
  refine ⟨by decide, by decide, ?_⟩
  rintro ⟨fuel, c1, h⟩
  rw [Put_blocked fuel _ (some 7) (by decide)] at h
  cases h

/-- On the capacity-4 queue, `n` rounds of one `Put` and one `Read` lead to the
empty quiescent state whose three counters are `n`, as long as `n ≤ 2 ^ 64 - 3`. -/
theorem reach_counters (n : Nat) (hn : n + 2 < U64) :
    ∃ c : FastChan Nat, SeqReach (builtQueue 4) (2 * n) c ∧ Quiescent 2 c ∧
      c.lastCommittedIndex = n ∧ c.nextFreeIndex = n ∧ c.readerIndex = n := by
  induction n with
  | zero =>
    exact ⟨builtQueue 4, SeqReach.init,
      ⟨by decide, by decide, by decide, by decide, by decide, by decide⟩,
      by decide, by decide, by decide⟩
  | succ n ih =>
    obtain ⟨c, hreach, hq, hlc, hnf, hr⟩ := ih (by omega)
    have hmask : c.indexMask = 3 := hq.mask
    obtain ⟨c1, c2, h1, _, h2, _, hlc2, hnf2, hr2, hq2⟩ :=
      put_read_roundtrip 2 4 c (some 0) (by decide) hq (by omega) (by omega) (by omega)
    refine ⟨c2, ?_, hq2, by omega, by omega, by omega⟩
    rw [show 2 * (n + 1) = 2 * n + 1 + 1 by omega]
    exact SeqReach.read _ 4 c1 c2 (some 0) (SeqReach.put _ 4 c c1 (some 0) hreach h1) h2

/-- C9 (evaluation at the failing input): the capacity-4 queue reaches, by
`2 ^ 64 - 3` rounds of one `Put` and one `Read`, the empty quiescent state whose
three counters are `2 ^ 64 - 3`; there `readerIndex + indexMask` overflows to 0 and
the next `Put`, the one of item number `2 ^ 64 - 2`, never leaves its wait loop. -/
theorem C9_put_blocks_within_limit :
    ∃ (c : FastChan Nat) (m : Nat), NewFastChan (2 ^ 44) 4 = some (builtQueue 4 : FastChan Nat) ∧
      SeqReach (builtQueue 4) m c ∧ c.contents.length = 4 ∧ c.indexMask = 3 ∧
      c.lastCommittedIndex = 2 ^ 64 - 3 ∧ c.nextFreeIndex = 2 ^ 64 - 3 ∧
      c.readerIndex = 2 ^ 64 - 3 ∧ 2 ^ 64 - 3 < 2 ^ 64 - 2 ∧
      ∀ fuel v, Put fuel c v = none := by
  obtain ⟨c, hreach, hq, hlc, hnf, hr⟩ := reach_counters (2 ^ 64 - 3) (by decide)
  have hmask : c.indexMask = 3 := hq.mask
  refine ⟨c, _, by decide, hreach, hq.len, hmask, hlc, hnf, hr, by decide, ?_⟩
  intro fuel v
  apply Put_blocked
  rw [hnf, hr, hmask]
  decide

/-- C10: a `Read` that returns changes `readerIndex` only, by one in 64-bit
arithmetic; `lastCommittedIndex`, `nextFreeIndex`, `indexMask` and the slot array,
the slot it returned included, are unchanged.  The returned slot keeps its content
afterwards: no action of a `Read` writes a slot, a `Put` writes a slot only in its
slot assignment, the slot assignment of a ticket strictly between the reader's
ticket `i` and `i + capacity` leaves slot `i & indexMask` as it is, and the slot
assignment of ticket `i + capacity` is the one that writes it. -/
theorem C10_read_does_not_clear {α : Type} (fuel : Nat) (c c1 : FastChan α)
    (x : CacheItem α) (h : Read fuel c = some (c1, x)) :
    c1 = { c with readerIndex := (c.readerIndex + 1) % U64 } ∧
      (c.readerIndex + 1 < U64 → c1.readerIndex = c.readerIndex + 1) ∧
      c1.contents = c.contents ∧ c1.lastCommittedIndex = c.lastCommittedIndex ∧
      c1.nextFreeIndex = c.nextFreeIndex ∧ c1.indexMask = c.indexMask ∧
      c1.contents.get? (((c.readerIndex + 1) % U64) &&& c.indexMask) = some x ∧
      (∀ (q : FastChan α) (pc : ReadPc α), (readStep q pc).1.contents = q.contents) ∧
      (∀ (q : FastChan α) (pc : PutPc α), (∀ j v, pc ≠ .writing j v) →
        (putStep q pc).1.contents = q.contents) ∧
      (∀ (k j : Nat) (q : FastChan α) (v : CacheItem α), q.indexMask = 2 ^ k - 1 →
        (c.readerIndex + 1) % U64 < j → j < (c.readerIndex + 1) % U64 + 2 ^ k →
        (putStep q (.writing j v)).1.contents.get? (((c.readerIndex + 1) % U64) &&& q.indexMask)
          = q.contents.get? (((c.readerIndex + 1) % U64) &&& q.indexMask)) ∧
      (∀ (k : Nat) (q : FastChan α) (v : CacheItem α), q.indexMask = 2 ^ k - 1 →
        q.contents.length = 2 ^ k →
        (putStep q (.writing ((c.readerIndex + 1) % U64 + 2 ^ k) v)).1.contents.get?
          (((c.readerIndex + 1) % U64) &&& q.indexMask) = some v) := by
  obtain ⟨_, _, hget, hc1⟩ := Read_inv fuel c c1 x h
  subst hc1
  refine ⟨rfl, ?_, rfl, rfl, rfl, rfl, hget, ?_, ?_, ?_, ?_⟩
  · intro hlt
    exact Nat.mod_eq_of_lt hlt
  · intro q pc
    cases pc with
    | start => rfl
    | waiting i =>
      by_cases hc : i > q.lastCommittedIndex
      · rw [readStep_waiting_block q i hc]
      · rw [readStep_waiting_pass q i (Nat.not_lt.1 hc)]
    | loading i =>
      cases hg : q.contents.get? (i &&& q.indexMask) with
      | none => rw [readStep_loading_oob q i hg]
      | some r => rw [readStep_loading_ok q i r hg]
    | done r => rfl
    | panicked => rfl
  · intro q pc hpc
    cases pc with
    | start v => rfl
    | waiting i v =>
      by_cases hc : i > (q.readerIndex + q.indexMask) % U64
      · rw [putStep_waiting_block q i v hc]
      · rw [putStep_waiting_pass q i v (Nat.not_lt.1 hc)]
    | writing i v => exact absurd rfl (hpc i v)
    | committing i =>
      by_cases hc : q.lastCommittedIndex = (i + U64 - 1) % U64
      · rw [putStep_committing_ok q i hc]
      · rw [putStep_committing_fail q i hc]
    | done => rfl
    | panicked => rfl
  · intro k j q v hmask hlo hhi
    by_cases hc : j &&& q.indexMask < q.contents.length
    · rw [putStep_writing_ok q j v hc]
      simp only [List.get?_eq_getElem?]
      apply List.getElem?_set_ne
      rw [hmask, Nat.and_pow_two_sub_one_eq_mod, Nat.and_pow_two_sub_one_eq_mod]
      have := mod_add_ne ((c.readerIndex + 1) % U64) (j - (c.readerIndex + 1) % U64) (2 ^ k)
        (by omega) (by omega)
      rw [show (c.readerIndex + 1) % U64 + (j - (c.readerIndex + 1) % U64) = j by omega] at this
      exact fun e => this e.symm
    · rw [putStep_writing_oob q j v hc]
  · intro k q v hmask hlen
    have hpos := two_pow_pos k
    have hidx : ((c.readerIndex + 1) % U64 + 2 ^ k) &&& q.indexMask
        = ((c.readerIndex + 1) % U64) &&& q.indexMask := by
      rw [hmask, Nat.and_pow_two_sub_one_eq_mod, Nat.and_pow_two_sub_one_eq_mod,
        Nat.add_mod_right]
    have hlt : ((c.readerIndex + 1) % U64) &&& q.indexMask < q.contents.length := by
      rw [hmask, Nat.and_pow_two_sub_one_eq_mod, hlen]
      exact Nat.mod_lt _ hpos
    rw [putStep_writing_ok q _ v (by rw [hidx]; exact hlt), hidx]
    simp only [List.get?_eq_getElem?]
    rw [List.getElem?_set_eq_of_lt _ hlt]

/-- C10, witness: a `Read` on the capacity-4 queue holding one item. -/
theorem C10_read_does_not_clear_witness :
    (⟨3, 1, 1, 1, [none, some 5, none, none]⟩ : FastChan Nat)
        = { (⟨3, 1, 1, 0, [none, some 5, none, none]⟩ : FastChan Nat) with
            readerIndex := (0 + 1) % U64 } ∧
      (⟨3, 1, 1, 1, [none, some 5, none, none]⟩ : FastChan Nat).contents
        = [none, some 5, none, none] :=
  ⟨(C10_read_does_not_clear 3 ⟨3, 1, 1, 0, [none, some 5, none, none]⟩
      ⟨3, 1, 1, 1, [none, some 5, none, none]⟩ (some 5) (by decide)).1,
    (C10_read_does_not_clear 3 ⟨3, 1, 1, 0, [none, some 5, none, none]⟩
      ⟨3, 1, 1, 1, [none, some 5, none, none]⟩ (some 5) (by decide)).2.2.1⟩

/-- C11: `NewFastChan(0)` does not panic, whatever the allocation limit: the
decrement wraps `0` to `2 ^ 64 - 1`, the shift-or rounds keep it and the increment
wraps back to `0`, so the queue returned has a slot array of length 0 and
`indexMask` equal to `2 ^ 64 - 1`, with the three counters at zero. -/
theorem C11_zero_capacity {α : Type} (maxLen : Nat) :
    roundUpNextPowerOfTwo 0 = 0 ∧
      ∃ c : FastChan α, NewFastChan maxLen 0 = some c ∧
        c.contents = [] ∧ c.contents.length = 0 ∧
        c.indexMask = 2 ^ 64 - 1 ∧ c.indexMask = 18446744073709551615 ∧
        c.lastCommittedIndex = 0 ∧ c.nextFreeIndex = 0 ∧ c.readerIndex = 0 := by
  have h : roundUpNextPowerOfTwo 0 = 0 := by decide
  have hc : (builtQueue 0 : FastChan α).contents = [] := by
    show List.replicate (roundUpNextPowerOfTwo 0) (none : CacheItem α) = []
    rw [h]
    rfl
  have hm : (builtQueue 0 : FastChan α).indexMask = 2 ^ 64 - 1 := by
    show (roundUpNextPowerOfTwo 0 + U64 - 1) % U64 = 2 ^ 64 - 1
    rw [h]
    decide
  exact ⟨h, builtQueue 0, NewFastChan_of_le maxLen 0 (by rw [h]; exact Nat.zero_le _), hc,
    by rw [hc]; rfl, hm, by rw [hm]; decide, rfl, rfl, rfl⟩

/-! ## Invariants of interleaved executions -/

/-- C12 (amended): in every state reached from a queue with zero counters by fewer
than `2 ^ 64` atomic actions of `Put` and `Read`, every read ticket that is claimed
but not committed yet (`lastCommittedIndex < j ≤ readerIndex`) is held by a `Read`
that is still in its wait loop, and every `Read` that has left its wait loop holds a
ticket `≤ lastCommittedIndex`; so `readerIndex ≤ lastCommittedIndex` in the states
in which no `Read` is in its wait loop. -/
theorem C12_reader_tickets {α : Type} (c : FastChan α) (items : List (CacheItem α))
    (readers : Nat) (sched : List Nat)
    (hlc : c.lastCommittedIndex = 0) (hnf : c.nextFreeIndex = 0) (hr : c.readerIndex = 0)
    (hlen : sched.length < U64) :
    (∀ j, ((System.init c items readers).run sched).chan.lastCommittedIndex < j →
        j ≤ ((System.init c items readers).run sched).chan.readerIndex →
        Thread.reader (.waiting j) ∈ ((System.init c items readers).run sched).threads) ∧
      (∀ i, Thread.reader (.loading i) ∈ ((System.init c items readers).run sched).threads →
        i ≤ ((System.init c items readers).run sched).chan.lastCommittedIndex) ∧
      ((∀ j, Thread.reader (.waiting j) ∉ ((System.init c items readers).run sched).threads) →
        ((System.init c items readers).run sched).chan.readerIndex
          ≤ ((System.init c items readers).run sched).chan.lastCommittedIndex) := by
  have hinv := SysInv_run sched 0 _ (SysInv_init c items readers hlc hnf hr) (by omega)
  refine ⟨hinv.waiting_reads, hinv.loading_reads, ?_⟩
  intro hno
  by_contra hcon
  exact hno _ (hinv.waiting_reads _ (Nat.not_le.1 hcon) (Nat.le_refl _))

/-- C12, witness: a writer and a reader on the capacity-2 queue, the reader first;
once both calls have returned no `Read` is waiting and the reader is not ahead. -/
theorem C12_reader_tickets_witness :
    ((System.init (builtQueue 2 : FastChan Nat) [some 1] 1).run
        [1, 1, 0, 0, 0, 0, 1, 1]).threads = [.putter .done, .reader (.done (some 1))] ∧
      ((System.init (builtQueue 2 : FastChan Nat) [some 1] 1).run
        [1, 1, 0, 0, 0, 0, 1, 1]).chan.readerIndex
      ≤ ((System.init (builtQueue 2 : FastChan Nat) [some 1] 1).run
        [1, 1, 0, 0, 0, 0, 1, 1]).chan.lastCommittedIndex :=
  ⟨by decide,
    (C12_reader_tickets (builtQueue 2 : FastChan Nat) [some 1] 1 [1, 1, 0, 0, 0, 0, 1, 1]
      (by decide) (by decide) (by decide) (by decide)).2.2 (by
        intro j hj
        have ht : ((System.init (builtQueue 2 : FastChan Nat) [some 1] 1).run
            [1, 1, 0, 0, 0, 0, 1, 1]).threads
            = [.putter .done, .reader (.done (some 1))] := by decide
        rw [ht] at hj
        simp at hj)⟩

/-- C12 as stated fails: on a fresh queue a `Read` that claims its ticket before any
`Put` makes `readerIndex` 1 while `lastCommittedIndex` is 0, and stays in its wait
loop. -/
theorem C12_counterexample :
    NewFastChan (2 ^ 44) 2 = some (builtQueue 2 : FastChan Nat) ∧
      ((System.init (builtQueue 2 : FastChan Nat) [] 1).run [0]).chan.readerIndex = 1 ∧
      ((System.init (builtQueue 2 : FastChan Nat) [] 1).run [0]).chan.lastCommittedIndex = 0 ∧
      ((System.init (builtQueue 2 : FastChan Nat) [] 1).run [0, 0, 0]).threads
        = [.reader (.waiting 1)] ∧
      ¬ ((System.init (builtQueue 2 : FastChan Nat) [] 1).run [0]).chan.readerIndex
        ≤ ((System.init (builtQueue 2 : FastChan Nat) [] 1).run [0]).chan.lastCommittedIndex := by
  decide

/-- C13: in every state reached from a queue with zero counters by atomic actions
of `Put` and `Read`, the counters staying below `2 ^ 64`, `lastCommittedIndex ≤
nextFreeIndex`, and none of the three counters decreases in the next action of any
goroutine. -/
theorem C13_commits_behind_claims {α : Type} (c : FastChan α) (items : List (CacheItem α))
    (readers : Nat) (sched : List Nat) (t : Nat)
    (hlc : c.lastCommittedIndex = 0) (hnf : c.nextFreeIndex = 0) (hr : c.readerIndex = 0)
    (hlen : sched.length + 1 < U64) :
    ((System.init c items readers).run sched).chan.lastCommittedIndex
        ≤ ((System.init c items readers).run sched).chan.nextFreeIndex ∧
      ((System.init c items readers).run sched).chan.nextFreeIndex
        ≤ (((System.init c items readers).run sched).step t).chan.nextFreeIndex ∧
      ((System.init c items readers).run sched).chan.lastCommittedIndex
        ≤ (((System.init c items readers).run sched).step t).chan.lastCommittedIndex ∧
      ((System.init c items readers).run sched).chan.readerIndex
        ≤ (((System.init c items readers).run sched).step t).chan.readerIndex := by
  have hinv := SysInv_run sched 0 _ (SysInv_init c items readers hlc hnf hr) (by omega)
  obtain ⟨_, h1, h2, hsome, hnone⟩ := SysInv_step _ t _ hinv (by omega)
  refine ⟨hinv.lc_le, h1, ?_, h2⟩
  cases hco : ((System.init c items readers).run sched).commitOf t with
  | none => exact Nat.le_of_eq (hnone hco).symm
  | some i =>
    obtain ⟨hi, hlc1⟩ := hsome i hco
    omega

/-- C13, witness: two writers and a reader on the capacity-4 queue. -/
theorem C13_commits_behind_claims_witness :
    ((System.init (builtQueue 4 : FastChan Nat) [some 1, some 2] 1).run
        [0, 1, 2, 1, 1]).chan.lastCommittedIndex
      ≤ ((System.init (builtQueue 4 : FastChan Nat) [some 1, some 2] 1).run
        [0, 1, 2, 1, 1]).chan.nextFreeIndex :=
  (C13_commits_behind_claims (builtQueue 4 : FastChan Nat) [some 1, some 2] 1
    [0, 1, 2, 1, 1] 0 (by decide) (by decide) (by decide) (by decide)).1

/-! ## Quiescent states: occupancy, guard, usable capacity -/

/-- Every queue reached from a quiescent queue with counters zero by `n` returned
calls, `n + 1 < 2 ^ 64`, is quiescent and its counters are at most `n`. -/
theorem SeqReach_quiescent {α : Type} (k : Nat) (c0 : FastChan α) (hq0 : Quiescent k c0)
    (hnf0 : c0.nextFreeIndex = 0) (hr0 : c0.readerIndex = 0) (n : Nat) (c : FastChan α)
    (hreach : SeqReach c0 n c) :
    n + 1 < U64 → Quiescent k c ∧ c.nextFreeIndex ≤ n ∧ c.readerIndex ≤ n := by
  induction hreach with
  | init =>
    intro _
    exact ⟨hq0, by omega, by omega⟩
  | put n fuel c c1 v _ hput ih =>
    intro hn
    obtain ⟨hq, hnf, hr⟩ := ih (by omega)
    obtain ⟨_, hle, _, _, hc1⟩ := Put_inv fuel c c1 v hput
    have hT : (c.nextFreeIndex + 1) % U64 = c.nextFreeIndex + 1 := Nat.mod_eq_of_lt (by omega)
    have hmod : (c.readerIndex + c.indexMask) % U64 ≤ c.readerIndex + c.indexMask :=
      Nat.mod_le _ _
    rw [hT] at hle hc1
    have hcom := hq.committed
    have hrle := hq.reader_le
    subst hc1
    exact ⟨⟨by simpa using hq.len, hq.mask, rfl, by simp only; omega, by simp only; omega,
      by simp only; omega⟩, by simp only; omega, by simp only; omega⟩
  | read n fuel c c1 x _ hread ih =>
    intro hn
    obtain ⟨hq, hnf, hr⟩ := ih (by omega)
    obtain ⟨_, hle, _, hc1⟩ := Read_inv fuel c c1 x hread
    have hT : (c.readerIndex + 1) % U64 = c.readerIndex + 1 := Nat.mod_eq_of_lt (by omega)
    rw [hT] at hle hc1
    have hroom := hq.room
    subst hc1
    exact ⟨⟨hq.len, hq.mask, hq.committed, by simp only; omega, by simp only; omega, hq.lc_lt⟩,
      by simp only; omega, by simp only; omega⟩

/-- Quiescent states of sequential runs: in every state reached from
`builtQueue size`, `0 < size ≤ 2 ^ 63`, by `n` returned calls, `n + 1 < 2 ^ 64`,
the occupancy is between 0 and the capacity. -/
theorem occupancy_bound_seq {α : Type} (size n : Nat) (c : FastChan α)
    (h0 : 0 < size) (h63 : size ≤ 2 ^ 63)
    (hreach : SeqReach (builtQueue size) n c) (hn : n + 1 < U64) :
    c.readerIndex ≤ c.lastCommittedIndex ∧
      c.lastCommittedIndex ≤ c.readerIndex + (builtQueue size : FastChan α).contents.length ∧
      Size c = c.lastCommittedIndex - c.readerIndex ∧
      Size c ≤ (builtQueue size : FastChan α).contents.length := by
  obtain ⟨k, _, hq0, hlen, _, _, hnf0, hr0, _⟩ := builtQueue_quiescent (α := α) size h0 h63
  obtain ⟨hq, _, _⟩ := SeqReach_quiescent k _ hq0 hnf0 hr0 n c hreach hn
  have hS := Size_of_le c hq.reader_le hq.lc_lt
  have hroom := hq.room
  have hmask := hq.mask
  have hpos := two_pow_pos k
  rw [hlen, hS]
  exact ⟨hq.reader_le, by omega, rfl, by omega⟩

/-- Replacing one goroutine keeps the fact that every write ticket issued is held
by a writer in its wait loop or is at most `readerIndex + M`. -/
theorem passed_replace {α : Type} (M t : Nat) (s : System α) (a b : Thread α)
    (c : FastChan α) (hget : s.threads.get? t = some a)
    (hp : ∀ i, 1 ≤ i → i ≤ s.chan.nextFreeIndex →
      (∃ v, Thread.putter (.waiting i v) ∈ s.threads) ∨ i ≤ s.chan.readerIndex + M)
    (hr : s.chan.readerIndex ≤ c.readerIndex)
    (hnew : ∀ i, s.chan.nextFreeIndex < i → i ≤ c.nextFreeIndex →
      ∃ v, b = .putter (.waiting i v))
    (ha : ∀ i v, a = .putter (.waiting i v) → b = a ∨ i ≤ c.readerIndex + M) :
    ∀ i, 1 ≤ i → i ≤ c.nextFreeIndex →
      (∃ v, Thread.putter (.waiting i v) ∈ s.threads.set t b) ∨ i ≤ c.readerIndex + M := by
  intro i hi1 hi2
  by_cases hold : i ≤ s.chan.nextFreeIndex
  · rcases hp i hi1 hold with ⟨v, hv⟩ | hle
    · by_cases hva : Thread.putter (.waiting i v) = a
      · rcases ha i v hva.symm with hb | hle
        · left
          refine ⟨v, ?_⟩
          rw [hva, ← hb]
          exact mem_set_self _ _ _ _ hget
        · exact Or.inr hle
      · exact Or.inl ⟨v, mem_set_of_ne _ _ _ _ _ hget hv hva⟩
    · exact Or.inr (Nat.le_trans hle (Nat.add_le_add_right hr M))
  · obtain ⟨v, hb⟩ := hnew i (Nat.not_le.1 hold) hi2
    left
    refine ⟨v, ?_⟩
    rw [← hb]
    exact mem_set_self _ _ _ _ hget

/-- One atomic action keeps `indexMask` and the fact that every write ticket issued
is held by a writer in its wait loop or is at most `readerIndex + indexMask`. -/
theorem passed_step {α : Type} (M n t : Nat) (s : System α) (h : SysInv n s)
    (hn : n + 1 < U64) (hm : s.chan.indexMask = M)
    (hp : ∀ i, 1 ≤ i → i ≤ s.chan.nextFreeIndex →
      (∃ v, Thread.putter (.waiting i v) ∈ s.threads) ∨ i ≤ s.chan.readerIndex + M) :
    (s.step t).chan.indexMask = M ∧
      ∀ i, 1 ≤ i → i ≤ (s.step t).chan.nextFreeIndex →
        (∃ v, Thread.putter (.waiting i v) ∈ (s.step t).threads) ∨
          i ≤ (s.step t).chan.readerIndex + M := by
  have hnf := h.nf_le
  have hr := h.r_le
  cases hget : s.threads.get? t with
  | none =>
    rw [step_none s t hget]
    exact ⟨hm, hp⟩
  | some a =>
    cases a with
    | putter pc =>
      rw [step_putter s t pc hget]
      cases pc with
      | start v =>
        have e1 : (s.chan.nextFreeIndex + 1) % U64 = s.chan.nextFreeIndex + 1 :=
          Nat.mod_eq_of_lt (by omega)
        have e : putStep s.chan (.start v)
            = ({ s.chan with nextFreeIndex := s.chan.nextFreeIndex + 1 },
                .waiting (s.chan.nextFreeIndex + 1) v) := by
          show (({ s.chan with nextFreeIndex := (s.chan.nextFreeIndex + 1) % U64 } : FastChan α),
            PutPc.waiting ((s.chan.nextFreeIndex + 1) % U64) v) = _
          rw [e1]
        rw [e]
        refine ⟨hm, passed_replace M t s _ _ _ hget hp (Nat.le_refl _) ?_ ?_⟩
        · intro i hi1 hi2
          have hi2' : i ≤ s.chan.nextFreeIndex + 1 := hi2
          have : i = s.chan.nextFreeIndex + 1 := by omega
          exact ⟨v, by rw [this]⟩
        · intro i w hw
          cases hw
      | waiting j v =>
        by_cases hc : j > (s.chan.readerIndex + s.chan.indexMask) % U64
        · rw [putStep_waiting_block _ _ _ hc]
          refine ⟨hm, passed_replace M t s _ _ _ hget hp (Nat.le_refl _) ?_ ?_⟩
          · intro i hi1 hi2
            have hi2' : i ≤ s.chan.nextFreeIndex := hi2
            omega
          · intro i w _
            exact Or.inl rfl
        · rw [putStep_waiting_pass _ _ _ (Nat.not_lt.1 hc)]
          refine ⟨hm, passed_replace M t s _ _ _ hget hp (Nat.le_refl _) ?_ ?_⟩
          · intro i hi1 hi2
            have hi2' : i ≤ s.chan.nextFreeIndex := hi2
            omega
          · intro i w hw
            cases hw
            right
            have hmod : (s.chan.readerIndex + s.chan.indexMask) % U64
                ≤ s.chan.readerIndex + s.chan.indexMask := Nat.mod_le _ _
            show j ≤ s.chan.readerIndex + M
            omega
      | writing j v =>
        by_cases hc : j &&& s.chan.indexMask < s.chan.contents.length
        · rw [putStep_writing_ok _ _ _ hc]
          refine ⟨hm, passed_replace M t s _ _ _ hget hp (Nat.le_refl _) ?_ ?_⟩
          · intro i hi1 hi2
            have hi2' : i ≤ s.chan.nextFreeIndex := hi2
            omega
          · intro i w hw
            cases hw
        · rw [putStep_writing_oob _ _ _ hc]
          refine ⟨hm, passed_replace M t s _ _ _ hget hp (Nat.le_refl _) ?_ ?_⟩
          · intro i hi1 hi2
            have hi2' : i ≤ s.chan.nextFreeIndex := hi2
            omega
          · intro i w hw
            cases hw
      | committing j =>
        by_cases hc : s.chan.lastCommittedIndex = (j + U64 - 1) % U64
        · rw [putStep_committing_ok _ _ hc]
          refine ⟨hm, passed_replace M t s _ _ _ hget hp (Nat.le_refl _) ?_ ?_⟩
          · intro i hi1 hi2
            have hi2' : i ≤ s.chan.nextFreeIndex := hi2
            omega
          · intro i w hw
            cases hw
        · rw [putStep_committing_fail _ _ hc]
          refine ⟨hm, passed_replace M t s _ _ _ hget hp (Nat.le_refl _) ?_ ?_⟩
          · intro i hi1 hi2
            have hi2' : i ≤ s.chan.nextFreeIndex := hi2
            omega
          · intro i w hw
            cases hw
      | done =>
        have e : putStep s.chan .done = (s.chan, .done) := rfl
        rw [e]
        refine ⟨hm, passed_replace M t s _ _ _ hget hp (Nat.le_refl _) ?_ ?_⟩
        · intro i hi1 hi2
          have hi2' : i ≤ s.chan.nextFreeIndex := hi2
          omega
        · intro i w hw
          cases hw
      | panicked =>
        have e : putStep s.chan .panicked = (s.chan, .panicked) := rfl
        rw [e]
        refine ⟨hm, passed_replace M t s _ _ _ hget hp (Nat.le_refl _) ?_ ?_⟩
        · intro i hi1 hi2
          have hi2' : i ≤ s.chan.nextFreeIndex := hi2
          omega
        · intro i w hw
          cases hw
    | reader pc =>
      rw [step_reader s t pc hget]
      cases pc with
      | start =>
        have e1 : (s.chan.readerIndex + 1) % U64 = s.chan.readerIndex + 1 :=
          Nat.mod_eq_of_lt (by omega)
        have e : readStep s.chan .start
            = ({ s.chan with readerIndex := s.chan.readerIndex + 1 },
                .waiting (s.chan.readerIndex + 1)) := by
          show (({ s.chan with readerIndex := (s.chan.readerIndex + 1) % U64 } : FastChan α),
            (ReadPc.waiting ((s.chan.readerIndex + 1) % U64) : ReadPc α)) = _
          rw [e1]
        rw [e]
        refine ⟨hm, passed_replace M t s _ _ _ hget hp (Nat.le_succ _) ?_ ?_⟩
        · intro i hi1 hi2
          have hi2' : i ≤ s.chan.nextFreeIndex := hi2
          omega
        · intro i w hw
          cases hw
      | waiting j =>
        by_cases hc : j > s.chan.lastCommittedIndex
        · rw [readStep_waiting_block _ _ hc]
          refine ⟨hm, passed_replace M t s _ _ _ hget hp (Nat.le_refl _) ?_ ?_⟩
          · intro i hi1 hi2
            have hi2' : i ≤ s.chan.nextFreeIndex := hi2
            omega
          · intro i w hw
            cases hw
        · rw [readStep_waiting_pass _ _ (Nat.not_lt.1 hc)]
          refine ⟨hm, passed_replace M t s _ _ _ hget hp (Nat.le_refl _) ?_ ?_⟩
          · intro i hi1 hi2
            have hi2' : i ≤ s.chan.nextFreeIndex := hi2
            omega
          · intro i w hw
            cases hw
      | loading j =>
        cases hg : s.chan.contents.get? (j &&& s.chan.indexMask) with
        | none =>
          rw [readStep_loading_oob _ _ hg]
          refine ⟨hm, passed_replace M t s _ _ _ hget hp (Nat.le_refl _) ?_ ?_⟩
          · intro i hi1 hi2
            have hi2' : i ≤ s.chan.nextFreeIndex := hi2
            omega
          · intro i w hw
            cases hw
        | some r =>
          rw [readStep_loading_ok _ _ r hg]
          refine ⟨hm, passed_replace M t s _ _ _ hget hp (Nat.le_refl _) ?_ ?_⟩
          · intro i hi1 hi2
            have hi2' : i ≤ s.chan.nextFreeIndex := hi2
            omega
          · intro i w hw
            cases hw
      | done r =>
        have e : readStep s.chan (.done r) = (s.chan, .done r) := rfl
        rw [e]
        refine ⟨hm, passed_replace M t s _ _ _ hget hp (Nat.le_refl _) ?_ ?_⟩
        · intro i hi1 hi2
          have hi2' : i ≤ s.chan.nextFreeIndex := hi2
          omega
        · intro i w hw
          cases hw
      | panicked =>
        have e : readStep s.chan .panicked = (s.chan, .panicked) := rfl
        rw [e]
        refine ⟨hm, passed_replace M t s _ _ _ hget hp (Nat.le_refl _) ?_ ?_⟩
        · intro i hi1 hi2
          have hi2' : i ≤ s.chan.nextFreeIndex := hi2
          omega
        · intro i w hw
          cases hw

/-- Along a schedule of fewer than `2 ^ 64` actions every write ticket issued is held
by a writer in its wait loop or is at most `readerIndex + indexMask`. -/
theorem passed_run {α : Type} (M : Nat) (sched : List Nat) :
    ∀ (n : Nat) (s : System α), SysInv n s → n + sched.length < U64 →
      s.chan.indexMask = M →
      (∀ i, 1 ≤ i → i ≤ s.chan.nextFreeIndex →
        (∃ v, Thread.putter (.waiting i v) ∈ s.threads) ∨ i ≤ s.chan.readerIndex + M) →
      (s.run sched).chan.indexMask = M ∧
        ∀ i, 1 ≤ i → i ≤ (s.run sched).chan.nextFreeIndex →
          (∃ v, Thread.putter (.waiting i v) ∈ (s.run sched).threads) ∨
            i ≤ (s.run sched).chan.readerIndex + M := by
  induction sched with
  | nil =>
    intro n s _ _ hm hp
    exact ⟨hm, hp⟩
  | cons t sched ih =>
    intro n s h hn hm hp
    simp only [List.length_cons] at hn
    have hstep := (SysInv_step n t s h (by omega)).1
    obtain ⟨hm1, hp1⟩ := passed_step M n t s h (by omega) hm hp
    exact ih (n + 1) (s.step t) hstep (by omega) hm1 hp1

/-- In a quiescent system no goroutine is in a wait loop. -/
theorem quiescent_no_waiting {α : Type} (s : System α) (hq : s.quiescent = true) :
    (∀ i v, Thread.putter (.waiting i v) ∉ s.threads) ∧
      ∀ j, Thread.reader (.waiting j) ∉ s.threads := by
  unfold System.quiescent at hq
  rw [List.all_eq_true] at hq
  constructor
  · intro i v hmem
    have := hq _ hmem
    cases this
  · intro j hmem
    have := hq _ hmem
    cases this

/-- C14: in every quiescent state (every call of `Put` and `Read` that has started
has returned) reached from the fresh queue built by `NewFastChan size`, of capacity
`C ≥ 1`, by the atomic actions of any number of goroutines in any interleaving,
without wrap-around (fewer than `2 ^ 64` actions),
`readerIndex ≤ lastCommittedIndex ≤ readerIndex + C` as natural numbers, `Size()` is
their difference and does not exceed the capacity (it is at most `C - 1`). -/
theorem C14_occupancy_bound {α : Type} (maxLen size : Nat) (c0 : FastChan α)
    (items : List (CacheItem α)) (readers : Nat) (sched : List Nat)
    (hnew : NewFastChan maxLen size = some c0) (h64 : size < U64)
    (hcap : 1 ≤ c0.contents.length) (hlen : sched.length < U64)
    (hq : ((System.init c0 items readers).run sched).quiescent = true) :
    ((System.init c0 items readers).run sched).chan.readerIndex
        ≤ ((System.init c0 items readers).run sched).chan.lastCommittedIndex ∧
      ((System.init c0 items readers).run sched).chan.lastCommittedIndex
        ≤ ((System.init c0 items readers).run sched).chan.readerIndex + c0.contents.length ∧
      Size ((System.init c0 items readers).run sched).chan
        = ((System.init c0 items readers).run sched).chan.lastCommittedIndex
          - ((System.init c0 items readers).run sched).chan.readerIndex ∧
      Size ((System.init c0 items readers).run sched).chan ≤ c0.contents.length - 1 ∧
      Size ((System.init c0 items readers).run sched).chan ≤ c0.contents.length := by
  obtain ⟨_, hc0⟩ := (NewFastChan_some maxLen size c0).1 hnew
  subst hc0
  obtain ⟨h0, h63⟩ := size_range_of_slot (α := α) size h64 (by omega)
  obtain ⟨k, _, _, hlen0, hmask0, hlc0, hnf0, hr0, _⟩ :=
    builtQueue_quiescent (α := α) size h0 h63
  have hpos := two_pow_pos k
  have hinit := SysInv_init (builtQueue size : FastChan α) items readers hlc0 hnf0 hr0
  have hinv := SysInv_run sched 0 _ hinit (by omega)
  have hp0 : ∀ i, 1 ≤ i → i ≤ (System.init (builtQueue size : FastChan α) items readers).chan.nextFreeIndex →
      (∃ v, Thread.putter (.waiting i v)
        ∈ (System.init (builtQueue size : FastChan α) items readers).threads) ∨
      i ≤ (System.init (builtQueue size : FastChan α) items readers).chan.readerIndex
        + (2 ^ k - 1) := by
    intro i hi1 hi2
    have : (System.init (builtQueue size : FastChan α) items readers).chan.nextFreeIndex = 0 :=
      hnf0
    omega
  obtain ⟨_, hp⟩ := passed_run (2 ^ k - 1) sched 0 _ hinit (by omega) hmask0 hp0
  obtain ⟨hnoput, hnoread⟩ := quiescent_no_waiting _ hq
  have hrl : ((System.init (builtQueue size : FastChan α) items readers).run sched).chan.readerIndex
      ≤ ((System.init (builtQueue size : FastChan α) items readers).run sched).chan.lastCommittedIndex := by
    by_contra hcon
    exact hnoread _ (hinv.waiting_reads _ (Nat.not_le.1 hcon) (Nat.le_refl _))
  have hlcnf := hinv.lc_le
  have hnfn := hinv.nf_le
  have hroom : ((System.init (builtQueue size : FastChan α) items readers).run sched).chan.nextFreeIndex
      ≤ ((System.init (builtQueue size : FastChan α) items readers).run sched).chan.readerIndex
        + (2 ^ k - 1) := by
    by_cases hz : ((System.init (builtQueue size : FastChan α) items readers).run sched).chan.nextFreeIndex = 0
    · omega
    · rcases hp _ (by omega) (Nat.le_refl _) with ⟨v, hv⟩ | hle
      · exact absurd hv (hnoput _ v)
      · exact hle
  have hS := Size_of_le _ hrl (by omega)
  rw [hlen0, hS]
  exact ⟨hrl, by omega, rfl, by omega, by omega⟩

/-- C14, witness: a writer and a reader on the capacity-1 queue that overlap: the
writer waits until the reader has claimed its ticket, then both return. -/
theorem C14_occupancy_bound_witness :
    ((System.init (builtQueue 1 : FastChan Nat) [some 7] 1).run
        [0, 1, 0, 0, 0, 1, 1]).threads = [.putter .done, .reader (.done (some 7))] ∧
      ((System.init (builtQueue 1 : FastChan Nat) [some 7] 1).run
        [0, 1, 0, 0, 0, 1, 1]).chan.lastCommittedIndex = 1 ∧
      ((System.init (builtQueue 1 : FastChan Nat) [some 7] 1).run
        [0, 1, 0, 0, 0, 1, 1]).chan.readerIndex
        ≤ ((System.init (builtQueue 1 : FastChan Nat) [some 7] 1).run
          [0, 1, 0, 0, 0, 1, 1]).chan.lastCommittedIndex ∧
      Size ((System.init (builtQueue 1 : FastChan Nat) [some 7] 1).run
        [0, 1, 0, 0, 0, 1, 1]).chan ≤ (builtQueue 1 : FastChan Nat).contents.length :=
  ⟨by decide, by decide,
    (C14_occupancy_bound (2 ^ 44) 1 (builtQueue 1) [some 7] 1 [0, 1, 0, 0, 0, 1, 1]
      (by decide) (by decide) (by decide) (by decide) (by decide)).1,
    (C14_occupancy_bound (2 ^ 44) 1 (builtQueue 1) [some 7] 1 [0, 1, 0, 0, 0, 1, 1]
      (by decide) (by decide) (by decide) (by decide) (by decide)).2.2.2.2⟩

/-- C15: on a queue of capacity `C = 2 ^ k` (`indexMask = C - 1`), when a `Put`
holding ticket `i > C` leaves its wait loop, `readerIndex + indexMask` not
overflowing, then `i ≤ readerIndex + indexMask`, read ticket `i - C` is claimed
(`i - C ≤ readerIndex`, even `i - C < readerIndex`), and so is the read ticket of
every earlier ticket `j < i` of the same slot (`j mod C = i mod C`): the slot this
`Put` writes holds no item whose read ticket is unclaimed. -/
theorem C15_overwrite_guard {α : Type} (k i : Nat) (q : FastChan α) (v : CacheItem α)
    (hmask : q.indexMask = 2 ^ k - 1) (hno : q.readerIndex + q.indexMask < U64)
    (hi : 2 ^ k < i) (hleave : putStep q (.waiting i v) = (q, .writing i v)) :
    i ≤ q.readerIndex + q.indexMask ∧ i - 2 ^ k ≤ q.readerIndex ∧
      i - 2 ^ k < q.readerIndex ∧
      (i - 2 ^ k) &&& q.indexMask = i &&& q.indexMask ∧
      ∀ j, j < i → j &&& q.indexMask = i &&& q.indexMask → j ≤ q.readerIndex := by
  have hpos := two_pow_pos k
  have hle : i ≤ q.readerIndex + q.indexMask := by
    by_contra hcon
    have hgt : i > (q.readerIndex + q.indexMask) % U64 := by
      rw [Nat.mod_eq_of_lt hno]; omega
    rw [putStep_waiting_block q i v hgt] at hleave
    cases hleave
  refine ⟨hle, by omega, by omega, ?_, ?_⟩
  · rw [hmask, Nat.and_pow_two_sub_one_eq_mod, Nat.and_pow_two_sub_one_eq_mod]
    conv_rhs => rw [show i = (i - 2 ^ k) + 2 ^ k by omega, Nat.add_mod_right]
  · intro j hj hslot
    rw [hmask, Nat.and_pow_two_sub_one_eq_mod, Nat.and_pow_two_sub_one_eq_mod] at hslot
    have h1 : j ≡ i [MOD 2 ^ k] := hslot
    have h2 : 2 ^ k ∣ i - j := (Nat.modEq_iff_dvd' (Nat.le_of_lt hj)).1 h1
    have h3 : 2 ^ k ≤ i - j := Nat.le_of_dvd (by omega) h2
    omega

/-- C15, witness: ticket 5 on the capacity-4 queue once two reads are claimed. -/
theorem C15_overwrite_guard_witness :
    5 ≤ (⟨3, 4, 5, 2, [some 4, some 1, some 2, some 3]⟩ : FastChan Nat).readerIndex
        + (⟨3, 4, 5, 2, [some 4, some 1, some 2, some 3]⟩ : FastChan Nat).indexMask ∧
      5 - 2 ^ 2 ≤ (⟨3, 4, 5, 2, [some 4, some 1, some 2, some 3]⟩ : FastChan Nat).readerIndex :=
  ⟨(C15_overwrite_guard 2 5 ⟨3, 4, 5, 2, [some 4, some 1, some 2, some 3]⟩ (some 5)
      (by decide) (by decide) (by decide) (by decide)).1,
    (C15_overwrite_guard 2 5 ⟨3, 4, 5, 2, [some 4, some 1, some 2, some 3]⟩ (some 5)
      (by decide) (by decide) (by decide) (by decide)).2.1⟩

/-- C16: on the fresh queue built by `NewFastChan size`, `0 < size ≤ 2 ^ 63`, of
capacity `C ≥ 1`, with no `Read`: `k ≤ C - 1` sequential `Put`s each leave the wait
loop at its first check (each returns within four atomic actions); after them
`IsFull()` is true exactly when `k = C - 1`; after `C - 1` of them the next `Put`
takes ticket `C`, its wait condition holds in every state whose `readerIndex` is
still 0, and it never returns on its own.  A fresh capacity-1 queue reports
`IsEmpty()` and `IsFull()` both true and returns from no `Put`. -/
theorem C16_usable_capacity {α : Type} (maxLen : Nat) (c0 : FastChan α) (size fuel : Nat) (vs : List (CacheItem α))
    (x : CacheItem α) (hnew : NewFastChan maxLen size = some c0)
    (h0 : 0 < size) (h63 : size ≤ 2 ^ 63)
    (hk : vs.length + 1 ≤ c0.contents.length) (hf : 4 ≤ fuel) :
    ∃ c1, putAll 4 c0 vs = some c1 ∧ putAll fuel c0 vs = some c1 ∧
      (IsFull c1 = true ↔ vs.length + 1 = c0.contents.length) ∧
      (vs.length + 1 = c0.contents.length →
        (putStep c1 (.start x)).2 = .waiting c0.contents.length x ∧
        (∀ c2 : FastChan α, c2.indexMask = c1.indexMask → c2.readerIndex = 0 →
          c0.contents.length
            > (c2.readerIndex + c2.indexMask) % U64) ∧
        ∀ n, Put n c1 x = none) ∧
      (c0.contents.length = 1 →
        IsEmpty c0 = true ∧
        IsFull c0 = true ∧
        ∀ n, Put n c0 x = none) := by
  obtain ⟨_, hc0⟩ := (NewFastChan_some maxLen size c0).1 hnew
  subst hc0
  obtain ⟨k, hk63, hq, hlen, hmask, hlc, hnf, hr, _⟩ := builtQueue_quiescent (α := α) size h0 h63
  have hm := mask_lt_U64 k hk63
  have hpos := two_pow_pos k
  have hlt : 2 ^ k < U64 := Nat.pow_lt_pow_right (by decide) (by omega)
  rw [hlen] at hk ⊢
  obtain ⟨c1, h1, hq1, hlc1, hr1, _⟩ := putAll_held k 4 (Nat.le_refl 4) vs (builtQueue size) hq
    (by omega) (by omega)
  obtain ⟨c1', h1', _⟩ := putAll_held k fuel hf vs (builtQueue size) hq (by omega) (by omega)
  have hsame : ∀ (f : Nat) (vs : List (CacheItem α)) (c a b : FastChan α), 4 ≤ f →
      putAll 4 c vs = some a → putAll f c vs = some b → a = b := by
    intro f vs
    induction vs with
    | nil =>
      intro c a b _ ha hb
      simp only [putAll, Option.some.injEq] at ha hb
      rw [← ha, ← hb]
    | cons v vs ih =>
      intro c a b hf4 ha hb
      simp only [putAll] at ha hb
      cases hp : Put 4 c v with
      | none => rw [hp] at ha; cases ha
      | some d =>
        obtain ⟨_, hle, hidx, hcm, hd⟩ := Put_inv 4 c d v hp
        cases hp2 : Put f c v with
        | none => rw [hp2] at hb; cases hb
        | some e =>
          obtain ⟨_, _, _, _, he⟩ := Put_inv f c e v hp2
          rw [hp] at ha
          rw [hp2] at hb
          rw [he, ← hd] at hb
          exact ih d a b hf4 ha hb
  have heq : c1 = c1' := hsame fuel vs _ c1 c1' hf h1 h1'
  subst heq
  have hcom := hq1.committed
  have hmask1 := hq1.mask
  have hnf1 : c1.nextFreeIndex = vs.length := by omega
  have hr0 : c1.readerIndex = 0 := by omega
  have hsum : (c1.readerIndex + c1.indexMask) % U64 = 2 ^ k - 1 := by
    rw [hr0, hmask1, Nat.zero_add, Nat.mod_eq_of_lt hm]
  refine ⟨c1, h1, h1', ?_, ?_, ?_⟩
  · simp only [IsFull, decide_eq_true_eq]
    rw [hsum, hnf1]
    omega
  · intro hfull
    have hticket : (c1.nextFreeIndex + 1) % U64 = 2 ^ k := by
      rw [hnf1, hfull, Nat.mod_eq_of_lt hlt]
    refine ⟨?_, ?_, ?_⟩
    · show PutPc.waiting ((c1.nextFreeIndex + 1) % U64) x = _
      rw [hticket]
    · intro c2 hm2 hr2
      rw [hr2, hm2, hmask1, Nat.zero_add, Nat.mod_eq_of_lt hm]
      omega
    · intro n
      apply Put_blocked
      rw [hticket, hsum]
      omega
  · intro hone
    have hmask0 : (builtQueue size : FastChan α).indexMask = 0 := by omega
    refine ⟨?_, ?_, ?_⟩
    · simp only [IsEmpty, decide_eq_true_eq]
      omega
    · simp only [IsFull, decide_eq_true_eq]
      rw [hr, hmask0, hnf]
      decide
    · intro n
      apply Put_blocked
      rw [hr, hmask0, hnf]
      decide

/-- C16, witness: three `Put`s fill the capacity-4 queue. -/
theorem C16_usable_capacity_witness :
    ∃ c1, putAll 4 (builtQueue 4 : FastChan Nat) [some 1, some 2, some 3] = some c1 ∧
      putAll 7 (builtQueue 4 : FastChan Nat) [some 1, some 2, some 3] = some c1 ∧
      (IsFull c1 = true ↔ 3 + 1 = (builtQueue 4 : FastChan Nat).contents.length) := by
  obtain ⟨c1, h1, h2, h3, _⟩ := C16_usable_capacity (2 ^ 44) (builtQueue 4) 4 7
    [some 1, some 2, some 3] (some 4) (by decide) (by decide) (by decide) (by decide) (by decide)
  exact ⟨c1, h1, h2, h3⟩

/-! ## Sequential refinement of the list model -/

theorem held_length_of_quiescent {α : Type} (k : Nat) (c : FastChan α) (hq : Quiescent k c) :
    (held c).length = c.lastCommittedIndex - c.readerIndex := by
  rw [held_length, Size_of_le c hq.reader_le hq.lc_lt]

/-- Admitted calls on a quiescent queue all return; the `Read`s return what the
list model returns and the items held at the end are the model's list. -/
theorem seqRun_refines {α : Type} (k fuel : Nat) (hf : 4 ≤ fuel) (ops : List (Op α)) :
    ∀ (c : FastChan α) (m mf outs : List (CacheItem α)), Quiescent k c → held c = m →
      c.readerIndex + ops.length + 2 ^ k ≤ U64 →
      modelRun (2 ^ k) m ops = some (mf, outs) →
      ∃ cf, seqRun fuel c ops = some (cf, outs) ∧ Quiescent k cf ∧ held cf = mf := by
  induction ops with
  | nil =>
    intro c m mf outs hq hm _ hmod
    simp only [modelRun, Option.some.injEq, Prod.mk.injEq] at hmod
    exact ⟨c, by rw [← hmod.2]; rfl, hq, by rw [hm, hmod.1]⟩
  | cons op ops ih =>
    intro c m mf outs hq hm hb hmod
    have hpos := two_pow_pos k
    have hlenm := held_length_of_quiescent k c hq
    rw [hm] at hlenm
    have hmask := hq.mask
    simp only [List.length_cons] at hb
    cases op with
    | put v =>
      simp only [modelRun] at hmod
      by_cases hadm : m.length + 1 < 2 ^ k
      · rw [if_pos hadm] at hmod
        obtain ⟨c1, h1, hq1, _, hr1, hh1⟩ := Put_held k fuel c v hf hq (by omega) (by omega)
        obtain ⟨cf, hrun, hqf, hhf⟩ := ih c1 (m ++ [v]) mf outs hq1 (by rw [hh1, hm])
          (by omega) hmod
        exact ⟨cf, by simp only [seqRun, h1, hrun], hqf, hhf⟩
      · rw [if_neg hadm] at hmod
        cases hmod
    | read =>
      cases m with
      | nil =>
        simp only [modelRun] at hmod
        cases hmod
      | cons x m1 =>
        simp only [modelRun] at hmod
        simp only [List.length_cons] at hlenm
        obtain ⟨c1, y, h1, hq1, _, hr1, hh1⟩ := Read_held k fuel c (by omega) hq (by omega)
        rw [hm] at hh1
        have hy : x = y := (List.cons.inj hh1).1
        have hm1 : m1 = held c1 := (List.cons.inj hh1).2
        subst hy
        cases hrest : modelRun (2 ^ k) m1 ops with
        | none =>
          rw [hrest] at hmod
          cases hmod
        | some p =>
          obtain ⟨m2, outs2⟩ := p
          rw [hrest] at hmod
          simp only [Option.some.injEq, Prod.mk.injEq] at hmod
          obtain ⟨cf, hrun, hqf, hhf⟩ := ih c1 m1 m2 outs2 hq1 hm1.symm (by omega) hrest
          refine ⟨cf, ?_, hqf, by rw [hhf, hmod.1]⟩
          simp only [seqRun, h1, hrun]
          rw [← hmod.2]

/-- A prefix of an admitted sequence of calls is admitted. -/
theorem modelRun_take {α : Type} (cap : Nat) (ops : List (Op α)) :
    ∀ (m mf outs : List (CacheItem α)) (n : Nat), modelRun cap m ops = some (mf, outs) →
      ∃ m1 outs1, modelRun cap m (ops.take n) = some (m1, outs1) := by
  induction ops with
  | nil =>
    intro m mf outs n _
    exact ⟨m, [], by simp only [List.take_nil, modelRun]⟩
  | cons op ops ih =>
    intro m mf outs n h
    cases n with
    | zero => exact ⟨m, [], by simp only [List.take_zero, modelRun]⟩
    | succ n =>
      cases op with
      | put v =>
        simp only [modelRun] at h
        by_cases hadm : m.length + 1 < cap
        · rw [if_pos hadm] at h
          obtain ⟨m1, outs1, h1⟩ := ih (m ++ [v]) mf outs n h
          exact ⟨m1, outs1, by simp only [List.take_succ_cons, modelRun, if_pos hadm, h1]⟩
        · rw [if_neg hadm] at h
          cases h
      | read =>
        cases m with
        | nil =>
          simp only [modelRun] at h
          cases h
        | cons x m1 =>
          simp only [modelRun] at h
          cases hrest : modelRun cap m1 ops with
          | none =>
            rw [hrest] at h
            cases h
          | some p =>
            obtain ⟨m2, outs2⟩ := p
            obtain ⟨m3, outs3, h3⟩ := ih m1 m2 outs2 n hrest
            exact ⟨m3, x :: outs3, by simp only [List.take_succ_cons, modelRun, h3]⟩

/-- C17: on the fresh queue built by `NewFastChan size`, `2 ≤ size ≤ 2 ^ 63`, of
capacity `C`, for every finite sequence of single-threaded `Put(x)` and `Read()` calls
that the list model admits (each `Put` when fewer than `C - 1` items are held, each
`Read` when at least one is), with `C` plus the number of calls at most `2 ^ 64`:
every call returns within four atomic actions, the `Read`s return exactly the heads
the model returns, the items held at the end are the model's list and `Size()` is
its length; and the same holds after every call (for every prefix of the sequence),
however often the tickets wrap around the slot array. -/
theorem C17_sequential_refinement {α : Type} (maxLen : Nat) (c0 : FastChan α) (size fuel : Nat) (ops : List (Op α))
    (mf outs : List (CacheItem α)) (hnew : NewFastChan maxLen size = some c0)
    (h2 : 2 ≤ size) (h63 : size ≤ 2 ^ 63) (hf : 4 ≤ fuel)
    (hfar : ops.length + c0.contents.length ≤ U64)
    (hmodel : modelRun c0.contents.length [] ops
      = some (mf, outs)) :
    (∃ cf, seqRun fuel c0 ops = some (cf, outs) ∧ held cf = mf ∧
        Size cf = mf.length) ∧
      ∀ n, ∃ c1 m1 outs1,
        modelRun c0.contents.length [] (ops.take n)
          = some (m1, outs1) ∧
        seqRun fuel c0 (ops.take n) = some (c1, outs1) ∧ held c1 = m1 ∧
        Size c1 = m1.length := by
  obtain ⟨_, hc0⟩ := (NewFastChan_some maxLen size c0).1 hnew
  subst hc0
  obtain ⟨k, _, hq, hlen, _, _, _, hr, hheld⟩ :=
    builtQueue_quiescent (α := α) size (by omega) h63
  rw [hlen] at hfar hmodel ⊢
  constructor
  · obtain ⟨cf, hrun, _, hhf⟩ := seqRun_refines k fuel hf ops (builtQueue size) [] mf outs
      hq hheld (by omega) hmodel
    exact ⟨cf, hrun, hhf, by rw [← held_length, hhf]⟩
  · intro n
    obtain ⟨m1, outs1, hm1⟩ := modelRun_take (2 ^ k) ops [] mf outs n hmodel
    have hlt : (ops.take n).length ≤ ops.length := by
      rw [List.length_take]; exact Nat.min_le_right _ _
    obtain ⟨c1, hrun, _, hh1⟩ := seqRun_refines k fuel hf (ops.take n) (builtQueue size) []
      m1 outs1 hq hheld (by omega) hm1
    exact ⟨c1, m1, outs1, hm1, hrun, hh1, by rw [← held_length, hh1]⟩

/-- C17, witness: seven calls on the capacity-2 queue; the tickets go round the two
slots twice. -/
theorem C17_sequential_refinement_witness :
    ∃ cf, seqRun 4 (builtQueue 2 : FastChan Nat)
        [.put (some 1), .read, .put (some 2), .read, .put (some 3), .read, .put (some 4)]
        = some (cf, [some 1, some 2, some 3]) ∧ held cf = [some 4] ∧ Size cf = 1 :=
  (C17_sequential_refinement (2 ^ 44) (builtQueue 2) 2 4
    [.put (some 1), .read, .put (some 2), .read, .put (some 3), .read, .put (some 4)]
    [some 4] [some 1, some 2, some 3] (by decide) (by decide) (by decide) (by decide)
    (by decide) (by decide)).1

/-- C18: for every size with `1 ≤ size ≤ 2 ^ 63` and every ticket value `i`, on the
queue built by `NewFastChan size` the index `i & indexMask` used by `Put` and `Read`
is below the length of the slot array and equals `i mod capacity`; so the slot
assignment of `Put` does not panic and the slot load of `Read` finds a slot. -/
theorem C18_slot_index_in_bounds {α : Type} (maxLen : Nat) (c0 : FastChan α) (size i : Nat) (hnew : NewFastChan maxLen size = some c0)
    (h0 : 1 ≤ size)
    (h63 : size ≤ 2 ^ 63) :
    i &&& c0.indexMask
        < c0.contents.length ∧
      i &&& c0.indexMask
        = i % c0.contents.length ∧
      (∀ (q : FastChan α) (v : CacheItem α),
        q.indexMask = c0.indexMask →
        q.contents.length = c0.contents.length →
        (putStep q (.writing i v)).2 = .committing i ∧
        ∃ r, (readStep q (.loading i)).2 = .done r) := by
  obtain ⟨_, hc0⟩ := (NewFastChan_some maxLen size c0).1 hnew
  subst hc0
  obtain ⟨k, _, hq, hlen, hmask, _⟩ := builtQueue_quiescent (α := α) size h0 h63
  have hpos := two_pow_pos k
  have hlt : i &&& (builtQueue size : FastChan α).indexMask
      < (builtQueue size : FastChan α).contents.length := by
    rw [hmask, hlen, Nat.and_pow_two_sub_one_eq_mod]
    exact Nat.mod_lt _ hpos
  refine ⟨hlt, by rw [hmask, hlen, Nat.and_pow_two_sub_one_eq_mod], ?_⟩
  intro q v hqm hql
  have hlt2 : i &&& q.indexMask < q.contents.length := by rw [hqm, hql]; exact hlt
  constructor
  · rw [putStep_writing_ok q i v hlt2]
  · have hg : q.contents.get? (i &&& q.indexMask)
        = some (q.contents.getD (i &&& q.indexMask) none) := by
      rw [List.getD_eq_getElem?_getD, List.get?_eq_getElem?, List.getElem?_eq_getElem hlt2]
      rfl
    exact ⟨_, by rw [readStep_loading_ok q i _ hg]⟩

/-- C18, witness: ticket `2 ^ 64 - 1` on the queue built from size 1000. -/
theorem C18_slot_index_in_bounds_witness :
    (2 ^ 64 - 1) &&& (builtQueue 1000 : FastChan Nat).indexMask
        < (builtQueue 1000 : FastChan Nat).contents.length ∧
      (2 ^ 64 - 1) &&& (builtQueue 1000 : FastChan Nat).indexMask
        = (2 ^ 64 - 1) % (builtQueue 1000 : FastChan Nat).contents.length :=
  ⟨(C18_slot_index_in_bounds (2 ^ 44) (builtQueue 1000) 1000 (2 ^ 64 - 1)
      (NewFastChan_of_le (2 ^ 44) 1000 (by decide)) (by decide) (by decide)).1,
    (C18_slot_index_in_bounds (2 ^ 44) (builtQueue 1000) 1000 (2 ^ 64 - 1)
      (NewFastChan_of_le (2 ^ 44) 1000 (by decide)) (by decide) (by decide)).2.1⟩

end Fastchan
